import Mathlib

/-!
Verification development for the rehype-astro-images plugin (src/index.js).

The plugin rewrites relative image references inside a hast document tree so
they point at content-addressed optimized asset paths.  The embedding below
translates the source file into Lean: pure string and path manipulation is
translated directly, the Node path.posix primitives used by the code
(resolve, dirname, basename, extname) are translated from their reference
implementations, and the external collaborators (filesystem, sha256 digest,
the astro imageMetadata and getImage services, the WHATWG URL constructor)
are parameters of an Env structure, since they are not code of this
repository.  Promises are modelled by Except String: a rejected promise is
an error value, and Promise.allSettled is a fold that keeps fulfilled
results and drops rejected ones.
-/

namespace RehypeAstroImages

/-! ## Character-list string helpers -/

/-- Take the first n characters of a string, as JS slice(0, n). -/
def strTake (s : String) (n : Nat) : String :=
  String.mk (s.toList.take n)

/-- Drop the first n characters of a string, as JS substring(n). -/
def strDrop (s : String) (n : Nat) : String :=
  String.mk (s.toList.drop n)

/-- JS startsWith, decided on the character lists. -/
def strStartsWith (s pre : String) : Bool :=
  pre.toList.isPrefixOf s.toList

/-- Value of a nonempty decimal digit string, as Number.parseInt base 10. -/
def digitsToNat (ds : List Char) : Nat :=
  ds.foldl (fun n c => n * 10 + (c.toNat - 48)) 0

/-! ## Node path.posix model

The plugin calls path.resolve, path.dirname, path.basename and path.extname.
These are translated from the Node path.posix reference implementation:
resolve concatenates its arguments right to left until an absolute segment
is found (falling back to the working directory), then normalizes the
string; normalization splits on the separator, drops empty and dot
segments, and lets dot-dot pop a segment. -/

/-- Split a character list on the / separator, keeping empty groups. -/
def splitSlash : List Char → List (List Char)
  | [] => [[]]
  | c :: rest =>
    if c = '/' then [] :: splitSlash rest
    else
      match splitSlash rest with
      | [] => [[c]]
      | g :: gs => (c :: g) :: gs

/-- Join segments with the / separator. -/
def joinSlash : List (List Char) → List Char
  | [] => []
  | g :: gs =>
    match gs with
    | [] => g
    | _ :: _ => g ++ '/' :: joinSlash gs

/-- One step of the normalizeString loop of Node path.posix: empty and dot
segments are dropped, dot-dot pops the previous segment (or is kept when
above the root of a relative path), and other segments are pushed.  The
stack is kept reversed. -/
def normStep (allowAboveRoot : Bool) (stack : List (List Char)) (seg : List Char) :
    List (List Char) :=
  if seg = [] ∨ seg = ['.'] then stack
  else if seg = ['.', '.'] then
    match stack with
    | top :: rest => if top = ['.', '.'] then seg :: top :: rest else rest
    | [] => if allowAboveRoot then [seg] else []
  else seg :: stack

/-- normalizeString of Node path.posix, on already-split segments. -/
def normalizeSegs (allowAboveRoot : Bool) (segs : List (List Char)) : List (List Char) :=
  (segs.foldl (normStep allowAboveRoot) []).reverse

/-- The accumulation loop of Node path.posix resolve: the argument list is
processed here already reversed (last argument first, working directory
appended at the end); empty parts are skipped, each part is prepended with
a separator, and the loop stops at the first absolute part. -/
def resolveLoop (acc : String) : List String → String × Bool
  | [] => (acc, false)
  | p :: rest =>
    if p = "" then resolveLoop acc rest
    else if strStartsWith p "/" then (p ++ "/" ++ acc, true)
    else resolveLoop (p ++ "/" ++ acc) rest

/-- Node path.posix resolve. -/
def pathResolve (cwd : String) (paths : List String) : String :=
  let joined := resolveLoop "" (paths.reverse ++ [cwd])
  let normalized := joinSlash (normalizeSegs (!joined.2) (splitSlash joined.1.toList))
  if joined.2 then String.mk ('/' :: normalized)
  else if normalized = [] then "." else String.mk normalized

/-- Node path.posix dirname: scan from the end, skip trailing separators,
skip the final component, and keep the prefix before it. -/
def dirname (p : String) : String :=
  match p.toList with
  | [] => "."
  | c0 :: rest =>
    let hasRoot := c0 = '/'
    let r := (rest.reverse.dropWhile (· = '/')).dropWhile (· ≠ '/')
    if r = [] then (if hasRoot then "/" else ".")
    else if hasRoot ∧ r.length = 1 then "//"
    else String.mk ((c0 :: rest).take r.length)

/-- Node path.posix basename (without an extension argument): trailing
separators are skipped and the final component is returned. -/
def basename (p : String) : String :=
  let r := p.toList.reverse.dropWhile (· = '/')
  String.mk ((r.takeWhile (· ≠ '/')).reverse)

/-- Scanner state of Node path.posix extname. -/
structure ExtScan where
  startDot : Option Nat
  startPart : Nat
  scanEnd : Option Nat
  matchedSlash : Bool
  preDotState : Int
  stopped : Bool
  deriving Repr, DecidableEq

/-- One iteration of the extname scanning loop, at index i (the loop runs
from the last index down to zero and stops at the first separator before
the final component). -/
def extnameStep (p : List Char) (st : ExtScan) (i : Nat) : ExtScan :=
  if st.stopped then st
  else
    let code := p.getD i ' '
    if code = '/' then
      if !st.matchedSlash then { st with startPart := i + 1, stopped := true } else st
    else
      let st' :=
        if st.scanEnd = none then { st with matchedSlash := false, scanEnd := some (i + 1) }
        else st
      if code = '.' then
        if st'.startDot = none then { st' with startDot := some i }
        else if st'.preDotState ≠ 1 then { st' with preDotState := 1 } else st'
      else if st'.startDot ≠ none then { st' with preDotState := -1 } else st'

/-- Node path.posix extname. -/
def extname (path : String) : String :=
  let p := path.toList
  let st := ((List.range p.length).reverse).foldl (extnameStep p)
    { startDot := none, startPart := 0, scanEnd := none, matchedSlash := true,
      preDotState := 0, stopped := false }
  match st.startDot, st.scanEnd with
  | some sd, some en =>
    if st.preDotState = 0 ∨ (st.preDotState = 1 ∧ sd = en - 1 ∧ sd = st.startPart + 1) then ""
    else String.mk ((p.take en).drop sd)
  | _, _ => ""

/-! ## Content hashing (getImageHash)

createHash of node:crypto is an external collaborator; the digest function
(bytes to lowercase hex string) is therefore a parameter.  getImageHash
itself is translated from the source: digest as hex, then
slice(0, Math.max(0, 8)). -/

/-- getImageHash of src/index.js, with the sha256 hex digest as a
parameter. -/
def getImageHash (sha256hex : List Nat → String) (imageSource : List Nat) : String :=
  strTake (sha256hex imageSource) (Nat.max 0 8)

/-! ## Asset file name generation

generateAssetFileName and renderNamePattern of src/index.js follow the
rollup asset naming convention: a pattern is either a template string with
bracketed tokens or a function from an asset descriptor to a name.  The
regex scan of renderNamePattern, with pattern \[(\w+)(:\d+)?], is
translated as a left-to-right scanner: at an opening bracket it matches a
nonempty word-character run, an optional colon-and-digits group and a
closing bracket; a position that does not match is copied verbatim. -/

/-- The descriptor passed to a function-valued assetFileNames option. -/
structure AssetInfo where
  name : String
  source : List Nat
  type : String
  deriving Repr

/-- The assetFileNames configuration value: a template string or a
function of the asset descriptor. -/
inductive AssetFileNames where
  | str (s : String)
  | fn (f : AssetInfo → String)

/-- A word character of the JS regex class \w. -/
def isWordChar (c : Char) : Bool :=
  c.isAlpha || c.isDigit || c = '_'

/-- Match one bracketed token at the position just after an opening
bracket: a nonempty word run, optionally a colon and a nonempty digit run,
then a closing bracket.  Returns the token name, the parsed size and the
rest of the input, or none when the regex does not match here. -/
def scanToken (l : List Char) : Option (String × Option Nat × List Char) :=
  if l.takeWhile isWordChar = [] then none
  else
    match l.dropWhile isWordChar with
    | ']' :: r => some (String.mk (l.takeWhile isWordChar), none, r)
    | ':' :: r1 =>
      (match r1.takeWhile Char.isDigit, r1.dropWhile Char.isDigit with
       | _ :: _, ']' :: r =>
         some (String.mk (l.takeWhile isWordChar),
           some (digitsToNat (r1.takeWhile Char.isDigit)), r)
       | _, _ => none)
    | _ => none

/-- The replace loop of renderNamePattern: fuel-indexed structural
recursion (the fuel is instantiated with the pattern length, which always
suffices because every step consumes at least one character).  The
property read replacements[type] follows the JS prototype chain, so the
lookup yields a callable not only for the four own keys but also for the
callable members of Object.prototype; a name whose lookup yields no
callable (an absent property, or the non-callable __proto__) makes the
call throw a TypeError, and a found callable may itself throw when
invoked — hence the lookup returns an Except-valued substitution
function.  A substituted result is not rescanned, as with String
replace. -/
def renderCharsF (repl : String → Option (Option Nat → Except String String)) :
    Nat → List Char → Except String (List Char)
  | 0, _ => .ok []
  | _ + 1, [] => .ok []
  | fuel + 1, c :: rest =>
    if c = '[' then
      match scanToken rest with
      | some (ty, size, r) =>
        match repl ty with
        | none => .error ("replacements[" ++ ty ++ "] is not a function")
        | some f =>
          match f size with
          | .error e => .error e
          | .ok s =>
            match renderCharsF repl fuel r with
            | .error e => .error e
            | .ok tail => .ok (s.toList ++ tail)
      | none =>
        match renderCharsF repl fuel rest with
        | .error e => .error e
        | .ok tail => .ok (c :: tail)
    else
      match renderCharsF repl fuel rest with
      | .error e => .error e
      | .ok tail => .ok (c :: tail)

/-- The list of bracketed tokens the renderNamePattern scan matches in a
pattern, with the same fuel-indexed scan as renderCharsF. -/
def patternTokensF : Nat → List Char → List (String × Option Nat)
  | 0, _ => []
  | _ + 1, [] => []
  | fuel + 1, c :: rest =>
    if c = '[' then
      match scanToken rest with
      | some (ty, size, r) => (ty, size) :: patternTokensF fuel r
      | none => patternTokensF fuel rest
    else patternTokensF fuel rest

/-- The tokens of a pattern string. -/
def patternTokens (pattern : String) : List (String × Option Nat) :=
  patternTokensF pattern.toList.length pattern.toList

/-- renderNamePattern of src/index.js. -/
def renderNamePattern (pattern : String)
    (replacements : String → Option (Option Nat → Except String String)) :
    Except String String :=
  match renderCharsF replacements pattern.toList.length pattern.toList with
  | .ok cs => .ok (String.mk cs)
  | .error e => .error e

/-- The default hash size local to generateAssetFileName. -/
def defaultHashSize : Nat := 8

/-- The property read replacements[type] on names the object literal does
not own falls through to Object.prototype, whose standard members are
modelled here from the ECMAScript semantics of this call site: the member
is invoked with the replacements object as receiver and the parsed size
(a number, or undefined when the token had no size group) as argument,
and String replace coerces the returned value with ToString.  So
constructor is Object: called on undefined it yields an empty object
printed as [object Object], called on a number it yields the Number
wrapper printed as that number (sizes are modelled as exact naturals);
toString, toLocaleString and valueOf print the plain receiver as
[object Object]; hasOwnProperty, isPrototypeOf and propertyIsEnumerable
yield false for every such argument; the lookupGetter and lookupSetter
members yield undefined, printed as the string undefined; the
defineGetter and defineSetter members throw because their getter or
setter argument is not callable; and the proto accessor yields the
non-callable Object.prototype, so calling it throws the same TypeError
as an absent name, which the none case of the renderer covers. -/
def objectProtoLookup : String → Option (Option Nat → Except String String) :=
  fun t =>
    if t = "constructor" then
      some (fun size => .ok (match size with
        | some n => Nat.repr n
        | none => "[object Object]"))
    else if t = "toString" then some (fun _ => .ok "[object Object]")
    else if t = "toLocaleString" then some (fun _ => .ok "[object Object]")
    else if t = "valueOf" then some (fun _ => .ok "[object Object]")
    else if t = "hasOwnProperty" then some (fun _ => .ok "false")
    else if t = "isPrototypeOf" then some (fun _ => .ok "false")
    else if t = "propertyIsEnumerable" then some (fun _ => .ok "false")
    else if t = "__lookupGetter__" then some (fun _ => .ok "undefined")
    else if t = "__lookupSetter__" then some (fun _ => .ok "undefined")
    else if t = "__defineGetter__" then
      some (fun _ => .error "Getter must be a function: undefined")
    else if t = "__defineSetter__" then
      some (fun _ => .error "Setter must be a function: undefined")
    else none

/-- The replacements table built by generateAssetFileName.  The hash entry
receives the parsed size (none when the token had no size group); the JS
expression size || defaultHashSize maps both none and zero to the
default, and Math.max(0, _) clamps.  The four own entries always return a
string; any other name is looked up on Object.prototype. -/
def assetReplacements (name : String) (sourceHash : String) :
    String → Option (Option Nat → Except String String) :=
  fun t =>
    if t = "ext" then some (fun _ => .ok (strDrop (extname name) 1))
    else if t = "extname" then some (fun _ => .ok (extname name))
    else if t = "hash" then
      some (fun size =>
        .ok (strTake sourceHash
          (Nat.max 0 (match size with
            | some n => if n = 0 then defaultHashSize else n
            | none => defaultHashSize))))
    else if t = "name" then
      some (fun _ => .ok (strTake name (Nat.max 0 (name.length - (extname name).length))))
    else objectProtoLookup t

/-- generateAssetFileName of src/index.js: a function-valued pattern is
first applied to the descriptor, and the resulting string (or the template
string itself) is rendered against the replacements table. -/
def generateAssetFileName (name : String) (source : List Nat) (sourceHash : String)
    (assetFileNames : AssetFileNames) : Except String String :=
  renderNamePattern
    (match assetFileNames with
     | .fn f => f { name := name, source := source, type := "asset" }
     | .str s => s)
    (assetReplacements name sourceHash)

/-! ## Configuration and external collaborators -/

/-- The value of viteConfig.build.rollupOptions.output reachable through
the optional-chaining reads of getImageAssetFileName: absent (none), a
single output object carrying an optional assetFileNames, or an array of
outputs. -/
inductive RollupOutput where
  | obj (assetFileNames : Option AssetFileNames)
  | arr

/-- Array.isArray on the output option. -/
def isArrayOutput : Option RollupOutput → Bool
  | some .arr => true
  | _ => false

/-- The default assetFileNames template of src/index.js. -/
def defaultAssetFileNames : String := "assets/[name]-[hash][extname]"

/-- The JS expression output.assetFileNames || default: an absent option,
and a falsy (empty) template string, fall back to the default template. -/
def effectiveAssetFileNames : Option RollupOutput → AssetFileNames
  | some (.obj (some (.str s))) =>
    if s = "" then .str defaultAssetFileNames else .str s
  | some (.obj (some (.fn f))) => .fn f
  | _ => .str defaultAssetFileNames

/-- Plugin options: rootPath is required, rootUrl and the vite config are
optional.  Only the output option of the vite config is read, so only that
part is modelled. -/
structure Options where
  rootPath : String
  rootUrl : Option String
  viteConfig : Option RollupOutput

/-- The external collaborators of the plugin: the current working
directory consulted by path.resolve, the filesystem (existsSync and
readFileSync read the same map from path to bytes), the sha256 hex digest,
url.pathToFileURL, the astro imageMetadata and getImage services, and the
WHATWG URL constructor used as new URL(rel, base).toString().  Metadata
values are opaque handles. -/
structure Env where
  cwd : String
  fs : String → Option (List Nat)
  sha256hex : List Nat → String
  pathToFileURL : String → String
  imageMetadata : String → Except String (Option Nat)
  getImage : Nat → String → Except String String
  urlResolve : String → String → String

/-! ## The per-image pipeline -/

/-- getImageSource of src/index.js: readFileSync, an error when the file
is missing. -/
def getImageSource (env : Env) (imagePath : String) : Except String (List Nat) :=
  match env.fs imagePath with
  | some data => .ok data
  | none => .error ("ENOENT: no such file or directory, open " ++ imagePath)

/-- getImageAssetFileName of src/index.js: read the source bytes, hash
them, reject an array-valued output option, then render the configured (or
default) assetFileNames pattern for the basename of the image. -/
def getImageAssetFileName (env : Env) (absolutePath : String)
    (viteConfig : Option RollupOutput) : Except String String :=
  match getImageSource env absolutePath with
  | .error e => .error e
  | .ok source =>
    let sourceHash := getImageHash env.sha256hex source
    if isArrayOutput viteConfig then
      .error "We don\u0027t know how to handle multiple output options 😬"
    else
      generateAssetFileName (basename absolutePath) source sourceHash
        (effectiveAssetFileNames viteConfig)

/-- One per-image promise chain of src/index.js lines 96-113: read the
image metadata from the file URL (a null result is turned into a thrown
error naming the relative path), compute the asset file name, call
getImage, and fulfill with the pair of the relative path and the final
image src.  Any rejection along the chain rejects the whole pipeline. -/
def pipelinePromise (env : Env) (viteConfig : Option RollupOutput)
    (relativePath absolutePath : String) : Except String (String × String) :=
  match env.imageMetadata (env.pathToFileURL absolutePath) with
  | .error e => .error e
  | .ok none => .error ("Failed to get metadata for image " ++ relativePath)
  | .ok (some meta) =>
    match getImageAssetFileName env absolutePath viteConfig with
    | .error e => .error e
    | .ok assetPath =>
      match env.getImage meta assetPath with
      | .error e => .error e
      | .ok src => .ok (relativePath, src)

/-! ## The document tree and the virtual file -/

/-- The value of a src property: a string or some non-string value (the
code checks typeof src === "string"). -/
inductive PropVal where
  | str (s : String)
  | nonStr
  deriving Repr, DecidableEq

/-- A hast tree in first-child next-sibling form: elem carries the tag
name and the optional src property, other stands for every non-element
node (root, text, comment).  nil is the empty forest. -/
inductive HTree where
  | nil
  | elem (tagName : String) (src? : Option PropVal) (child : HTree) (next : HTree)
  | other (child : HTree) (next : HTree)
  deriving Repr, DecidableEq

/-- The value found at file.data.imagePaths: a Set of strings, an Array of
strings (not a Set instance), or absent. -/
inductive ImagePathsVal where
  | set (elems : List String)
  | array (elems : List String)
  | absent
  deriving Repr, DecidableEq

/-- The virtual file the transformer receives: its path (an empty string
models a missing or empty path, both falsy) and the attached imagePaths
value. -/
structure VFile where
  path : String
  imagePaths : ImagePathsVal

/-! ## JS Map operations (insertion order preserving) -/

/-- Map.get. -/
def mapGet : List (String × String) → String → Option String
  | [], _ => none
  | (k2, v) :: rest, k => if k2 = k then some v else mapGet rest k

/-- Map.has. -/
def mapHas (m : List (String × String)) (k : String) : Bool :=
  (mapGet m k).isSome

/-- Map.set: update in place when the key exists, append otherwise. -/
def mapSet : List (String × String) → String → String → List (String × String)
  | [], k, v => [(k, v)]
  | (k2, v2) :: rest, k, v =>
    if k2 = k then (k2, v) :: rest else (k2, v2) :: mapSet rest k v

/-! ## The transformer -/

/-- The visitor guard of src/index.js lines 46-59 on the shape of a node:
an element named img whose src property is a nonempty string contained in
the imagePaths set yields that string. -/
def nodeImageSrc (imagePaths : List String) (tagName : String) (src? : Option PropVal) :
    Option String :=
  if tagName = "img" then
    match src? with
    | some (.str s) => if s = "" then none else if s ∈ imagePaths then some s else none
    | _ => none
  else none

/-- Resolution of a reference to an absolute path, lines 68-83: the
~/assets/ alias resolves under rootPath/src/assets, anything else resolves
against the directory of the document path. -/
def resolveSrc (env : Env) (options : Options) (filePath : String) (src : String) : String :=
  if strStartsWith src "~/assets/" then
    pathResolve env.cwd [options.rootPath, "src", "assets", strDrop src 9]
  else
    pathResolve env.cwd [dirname filePath, src]

/-- The body of the visitor for one node, acting on the imagesToResolve
map: a node that fails the shape guard leaves the map unchanged; a
reference already present is skipped (the node only joins imageNodes); a
new reference is resolved and recorded exactly when the file exists. -/
def collectImage (env : Env) (options : Options) (filePath : String)
    (imagePaths : List String) (m : List (String × String)) (tagName : String)
    (src? : Option PropVal) : List (String × String) :=
  match nodeImageSrc imagePaths tagName src? with
  | none => m
  | some src =>
    if mapHas m src then m
    else
      let absolutePath := resolveSrc env options filePath src
      if (env.fs absolutePath).isSome then m ++ [(src, absolutePath)] else m

/-- The preorder visit of unist-util-visit, folding collectImage over the
tree: node first, then its children, then its siblings. -/
def collectImages (env : Env) (options : Options) (filePath : String)
    (imagePaths : List String) : List (String × String) → HTree → List (String × String)
  | m, .nil => m
  | m, .elem tagName src? child next =>
    collectImages env options filePath imagePaths
      (collectImages env options filePath imagePaths
        (collectImage env options filePath imagePaths m tagName src?) child) next
  | m, .other child next =>
    collectImages env options filePath imagePaths
      (collectImages env options filePath imagePaths m child) next

/-- The references of the filter-passing image nodes of a document, in
visit order (with repetitions). -/
def eligibleSrcs (imagePaths : List String) : HTree → List String
  | .nil => []
  | .elem tagName src? child next =>
    (match nodeImageSrc imagePaths tagName src? with
     | some src => [src]
     | none => []) ++ eligibleSrcs imagePaths child ++ eligibleSrcs imagePaths next
  | .other child next => eligibleSrcs imagePaths child ++ eligibleSrcs imagePaths next

/-- The loop body of lines 118-124 for one settled result: a fulfilled
result is recorded in the resolvedImages map, a rejection only logs a
warning and leaves the map unchanged. -/
def settleStep (resolvedImages : List (String × String))
    (result : Except String (String × String)) : List (String × String) :=
  match result with
  | .ok kv => mapSet resolvedImages kv.1 kv.2
  | .error _ => resolvedImages

/-- The Promise.allSettled fold of lines 118-124. -/
def settleResults (results : List (Except String (String × String))) :
    List (String × String) :=
  results.foldl settleStep []

/-- absolutize of src/index.js lines 227-229. -/
def absolutize (path : String) : String :=
  if strStartsWith path "/" then "/" ++ path else path

/-- The src value written back for a resolved image, lines 129-136: made
absolute against rootUrl when one is configured, passed through absolutize
otherwise. -/
def finalSrc (env : Env) (options : Options) (resolvedSrc : String) : String :=
  match options.rootUrl with
  | some u => env.urlResolve resolvedSrc u
  | none => absolutize resolvedSrc

/-- The rewrite of one node, lines 126-138.  A node is in imageNodes
exactly when it passes the shape guard and its reference is a key of
imagesToResolve (a first occurrence is pushed together with its map entry,
later occurrences are pushed because the key is already present, and a
reference whose file does not exist is pushed for no occurrence); for such
a node a truthy resolvedImages entry replaces the src property. -/
def rewriteSrc (env : Env) (options : Options) (imagePaths : List String)
    (imagesToResolve resolvedImages : List (String × String)) (tagName : String)
    (src? : Option PropVal) : Option PropVal :=
  match nodeImageSrc imagePaths tagName src? with
  | none => src?
  | some src =>
    if mapHas imagesToResolve src then
      match mapGet resolvedImages src with
      | some resolvedSrc =>
        if resolvedSrc = "" then src?
        else some (.str (finalSrc env options resolvedSrc))
      | none => src?
    else src?

/-- The in-place mutation of the collected image nodes, as a structural
rewrite of the tree. -/
def rewriteTree (env : Env) (options : Options) (imagePaths : List String)
    (imagesToResolve resolvedImages : List (String × String)) : HTree → HTree
  | .nil => .nil
  | .elem tagName src? child next =>
    .elem tagName
      (rewriteSrc env options imagePaths imagesToResolve resolvedImages tagName src?)
      (rewriteTree env options imagePaths imagesToResolve resolvedImages child)
      (rewriteTree env options imagePaths imagesToResolve resolvedImages next)
  | .other child next =>
    .other (rewriteTree env options imagePaths imagesToResolve resolvedImages child)
      (rewriteTree env options imagePaths imagesToResolve resolvedImages next)

/-- The transformer returned by rehypeAstroImages, instrumented with the
list of dispatched pipeline entries (one pipelinePromise call per entry of
imagesToResolve, in insertion order).  The guard of lines 29-35 returns
the tree untouched when the file path is falsy, when imagePaths is not a
Set instance, or when the set is empty. -/
def rehypeAstroImagesRun (env : Env) (options : Options) (tree : HTree) (file : VFile) :
    HTree × List (String × String) :=
  if file.path = "" then (tree, [])
  else
    match file.imagePaths with
    | .set imagePaths =>
      if imagePaths.length = 0 then (tree, [])
      else
        let imagesToResolve := collectImages env options file.path imagePaths [] tree
        let imagePromises :=
          imagesToResolve.map (fun e => pipelinePromise env options.viteConfig e.1 e.2)
        let resolvedImages := settleResults imagePromises
        (rewriteTree env options imagePaths imagesToResolve resolvedImages tree,
          imagesToResolve)
    | _ => (tree, [])

/-- The transformer as seen by unified: the rewritten tree. -/
def rehypeAstroImages (env : Env) (options : Options) (tree : HTree) (file : VFile) :
    HTree :=
  (rehypeAstroImagesRun env options tree file).1

/-- Modelled from the spec: the alias rule of the PathResolver contract,
in the words of the spec, is that the path of a reference starting with
~/assets/ is aliasRoot/src/assets/<remainder>, a plain join.  This
definition follows the spec words and is compared with the resolution the
source performs. -/
def specAliasJoin (rootPath remainder : String) : String :=
  rootPath ++ "/src/assets/" ++ remainder

/-! ## Concrete instances used by counterexamples and witnesses -/

/-- A fixed stand-in digest function for concrete runs. -/
def demoSha : List Nat → String :=
  fun _ => "0123456789abcdef0123456789abcdef0123456789abcdef0123456789abcdef"

/-- A concrete environment: two image files exist under /d, metadata always
succeeds, and getImage fulfills with the asset path it was given. -/
def demoEnv : Env :=
  { cwd := "/"
    fs := fun p =>
      if p = "/d/a.png" then some [1] else if p = "/d/pic.png" then some [2] else none
    sha256hex := demoSha
    pathToFileURL := fun p => "file://" ++ p
    imageMetadata := fun _ => .ok (some 0)
    getImage := fun _ p => .ok p
    urlResolve := fun a _ => a }

/-- Options with no rootUrl and no vite config. -/
def demoOptions : Options := { rootPath := "/proj", rootUrl := none, viteConfig := none }

/-! ## Claim C9 -/

/-- Claim C9: for every document whose candidate image-reference set is
absent or empty, the transformer returns with the tree unchanged and
dispatches no pipeline; the guard of lines 29-35 treats this as a valid
no-op input. -/
theorem c9_empty_set_identity (env : Env) (options : Options) (tree : HTree)
    (file : VFile) (h : file.imagePaths = .absent ∨ file.imagePaths = .set []) :
    rehypeAstroImagesRun env options tree file = (tree, []) := by
  unfold rehypeAstroImagesRun
  rcases h with h | h <;> rw [h] <;> by_cases hp : file.path = "" <;> simp [hp]

/-- Witness for c9_empty_set_identity at a concrete document. -/
theorem c9_empty_set_identity_witness :
    rehypeAstroImagesRun demoEnv demoOptions
      (HTree.elem "img" (some (.str "a.png")) .nil .nil)
      { path := "/d/p.md", imagePaths := .set [] } =
      (HTree.elem "img" (some (.str "a.png")) .nil .nil, []) :=
  c9_empty_set_identity demoEnv demoOptions _ _ (Or.inr rfl)

/-! ## Claim C10 -/

/-- Claim C10: a missing or empty file path, or an imagePaths value that
is not a Set instance (for example an Array of valid reference strings),
makes the transformer return immediately with the tree unchanged and the
value neither reported as an error nor iterated (no pipeline entry is
dispatched). -/
theorem c10_non_set_identity (env : Env) (options : Options) (tree : HTree)
    (file : VFile) (l : List String)
    (h : file.path = "" ∨ file.imagePaths = .array l) :
    rehypeAstroImagesRun env options tree file = (tree, []) := by
  unfold rehypeAstroImagesRun
  rcases h with h | h
  · simp [h]
  · rw [h]; by_cases hp : file.path = "" <;> simp [hp]

/-- Witness for c10_non_set_identity: a nonempty array of valid reference
strings attached to a file whose image actually exists is still a no-op. -/
theorem c10_non_set_identity_witness :
    rehypeAstroImagesRun demoEnv demoOptions
      (HTree.elem "img" (some (.str "a.png")) .nil .nil)
      { path := "/d/p.md", imagePaths := .array ["a.png"] } =
      (HTree.elem "img" (some (.str "a.png")) .nil .nil, []) :=
  c10_non_set_identity demoEnv demoOptions _ _ ["a.png"] (Or.inr rfl)

/-! ## Claim C2 -/

/-- Concrete tree for the C2 counterexample: one img node. -/
def treeC2 : HTree := .other (.elem "img" (some (.str "pic.png")) .nil .nil) .nil

/-- Environment for the C2 counterexample: getImage fulfills with a src
that already starts with a slash. -/
def envC2 : Env := { demoEnv with getImage := fun _ _ => .ok "/pic-out.png" }

/-- Counterexample to claim C2: with no rootUrl configured, the optimizer
fulfills with the resolved output path /pic-out.png, which already starts
with a slash, yet the src written back to the node is //pic-out.png, not
the unchanged path the claim requires (absolutize prefixes a second slash
onto paths that already start with one). -/
theorem c2_pass_through_cex :
    rehypeAstroImages envC2 demoOptions treeC2
        { path := "/d/p.md", imagePaths := .set ["pic.png"] } =
      .other (.elem "img" (some (.str "//pic-out.png")) .nil .nil) .nil ∧
    envC2.getImage 0 "assets/pic-01234567.png" = .ok "/pic-out.png" ∧
    ("//pic-out.png" : String) ≠ "/pic-out.png" := by
  refine ⟨by decide, rfl, by decide⟩

/-- Claim C2 as amended: when no rootUrl is configured, a resolved output
path that already starts with a slash is written back with a second slash
prefixed (so it is changed), while a path not starting with a slash is
left as-is. -/
theorem c2_absolutize_amended (env : Env) (options : Options) (v : String)
    (h : options.rootUrl = none) :
    (strStartsWith v "/" = true →
      finalSrc env options v = "/" ++ v ∧ finalSrc env options v ≠ v) ∧
    (strStartsWith v "/" = false → finalSrc env options v = v) := by
  have hfs : finalSrc env options v = absolutize v := by
    unfold finalSrc; rw [h]
  constructor
  · intro hs
    rw [hfs]
    unfold absolutize
    rw [hs]
    refine ⟨rfl, fun heq => ?_⟩
    have hlen : ("/" ++ v).length = v.length := congrArg String.length heq
    rw [String.length_append] at hlen
    have h1 : ("/" : String).length = 1 := rfl
    omega
  · intro hs
    rw [hfs]
    unfold absolutize
    rw [hs]
    simp

/-- Witness for c2_absolutize_amended at a slash-prefixed resolved path. -/
theorem c2_absolutize_amended_witness :
    finalSrc demoEnv demoOptions "/pic-out.png" = "/" ++ "/pic-out.png" ∧
    finalSrc demoEnv demoOptions "/pic-out.png" ≠ "/pic-out.png" :=
  (c2_absolutize_amended demoEnv demoOptions "/pic-out.png" rfl).1 (by decide)

/-! ## Renderer lemmas -/

/-- Rebuilding a string from its character list is the identity. -/
theorem strMkToList (s : String) : String.mk s.toList = s := by
  cases s; rfl

/-- takeWhile and dropWhile on a list whose prefix satisfies the predicate
and whose next element does not. -/
theorem takeWhile_all_append (p : Char → Bool) (d : List Char) (x : Char) (r : List Char)
    (hd : ∀ c ∈ d, p c = true) (hx : p x = false) :
    (d ++ x :: r).takeWhile p = d ∧ (d ++ x :: r).dropWhile p = x :: r := by
  induction d with
  | nil => simp [List.takeWhile_cons, List.dropWhile_cons, hx]
  | cons c cs ih =>
    have hc : p c = true := hd c (by simp)
    have hcs : ∀ a ∈ cs, p a = true := fun a ha => hd a (by simp [ha])
    simpa [List.takeWhile_cons, List.dropWhile_cons, hc] using ih hcs

/-- The scan of one hash token with an explicit size group: the word run
stops at the colon, the digit run stops at the closing bracket. -/
theorem scanToken_hash_size (d : List Char) (hd : d ≠ [])
    (hdig : ∀ c ∈ d, c.isDigit = true) :
    scanToken ('h' :: 'a' :: 's' :: 'h' :: ':' :: (d ++ [']'])) =
      some ("hash", some (digitsToNat d), []) := by
  have hw : ∀ c ∈ (['h', 'a', 's', 'h'] : List Char), isWordChar c = true := by decide
  have htw := takeWhile_all_append isWordChar ['h', 'a', 's', 'h'] ':' (d ++ [']']) hw
    (by decide)
  have htd := takeWhile_all_append Char.isDigit d ']' [] hdig (by decide)
  unfold scanToken
  rw [show ('h' :: 'a' :: 's' :: 'h' :: ':' :: (d ++ [']'])) =
    (['h', 'a', 's', 'h'] ++ ':' :: (d ++ [']'])) from rfl]
  rw [htw.1, htw.2]
  simp only [if_neg (by decide : ¬(['h', 'a', 's', 'h'] : List Char) = [])]
  rw [show d ++ [']'] = d ++ ']' :: [] from rfl, htd.1, htd.2]
  match d, hd with
  | c :: cs, _ => rfl

/-- renderCharsF on the empty input succeeds with the empty output for
every fuel value. -/
theorem renderCharsF_nil (repl : String → Option (Option Nat → Except String String))
    (fuel : Nat) :
    renderCharsF repl fuel [] = .ok [] := by
  cases fuel <;> rfl

/-- Rendering a pattern that consists of one token whose replacement call
returns a value: that value is substituted. -/
theorem renderCharsF_one_token (repl : String → Option (Option Nat → Except String String))
    (fuel : Nat) (rest : List Char) (ty : String) (size : Option Nat)
    (f : Option Nat → Except String String) (s : String)
    (hscan : scanToken rest = some (ty, size, []))
    (hrepl : repl ty = some f) (hval : f size = .ok s) :
    renderCharsF repl (fuel + 1) ('[' :: rest) = .ok s.toList := by
  simp only [renderCharsF, hscan, hrepl, hval, renderCharsF_nil, List.append_nil,
    eq_self_iff_true, if_true]

/-- Taking twice takes the minimum. -/
theorem strTake_strTake (s : String) (m n : Nat) :
    strTake (strTake s m) n = strTake s (Nat.min n m) := by
  unfold strTake
  simp [List.take_take]

/-- Claim C5 as amended: the stored source hash is itself pre-truncated to
the default 8 hex characters, so a token hash:N substitutes the first
min(N, 8) characters of the digest when N is at least 1, while hash:0 is
treated like an absent size (JS size || default) and yields the default 8;
the bare hash token also yields the first 8 characters of the digest. -/
theorem c5_hash_truncation (sha : List Nat → String) (name : String) (source : List Nat)
    (d : List Char) (N : Nat) (hd : d ≠ []) (hdig : ∀ c ∈ d, c.isDigit = true)
    (hval : digitsToNat d = N) :
    generateAssetFileName name source (getImageHash sha source)
        (.str (String.mk ('[' :: 'h' :: 'a' :: 's' :: 'h' :: ':' :: (d ++ [']'])))) =
      .ok (strTake (sha source) (Nat.min (if N = 0 then defaultHashSize else N) 8)) ∧
    generateAssetFileName name source (getImageHash sha source) (.str "[hash]") =
      .ok (strTake (sha source) 8) := by
  have hrepl : assetReplacements name (getImageHash sha source) "hash" =
      some (fun size =>
        .ok (strTake (getImageHash sha source)
          (Nat.max 0 (match size with
            | some n => if n = 0 then defaultHashSize else n
            | none => defaultHashSize)))) := by
    unfold assetReplacements
    rw [if_neg (by decide), if_neg (by decide), if_pos rfl]
  constructor
  · unfold generateAssetFileName renderNamePattern
    rw [show (String.mk ('[' :: 'h' :: 'a' :: 's' :: 'h' :: ':' :: (d ++ [']']))).toList =
      '[' :: ('h' :: 'a' :: 's' :: 'h' :: ':' :: (d ++ [']'])) from rfl]
    rw [List.length_cons]
    rw [renderCharsF_one_token _ _ _ "hash" (some N) _
      (strTake (getImageHash sha source)
        (Nat.max 0 (if N = 0 then defaultHashSize else N)))
      (by rw [scanToken_hash_size d hd hdig, hval]) hrepl rfl]
    simp only [strMkToList]
    unfold getImageHash
    rw [strTake_strTake]
    simp [Nat.zero_max]
  · unfold generateAssetFileName renderNamePattern
    rw [show ("[hash]" : String).toList = '[' :: ['h', 'a', 's', 'h', ']'] from rfl]
    rw [List.length_cons]
    rw [renderCharsF_one_token _ _ _ "hash" none _
      (strTake (getImageHash sha source) (Nat.max 0 defaultHashSize))
      (by decide) hrepl rfl]
    simp only [strMkToList]
    unfold getImageHash
    rw [strTake_strTake]
    simp [Nat.zero_max, defaultHashSize]

/-- Witness for c5_hash_truncation: a size of 4 yields the first four hex
characters of the digest. -/
theorem c5_hash_truncation_witness :
    generateAssetFileName "photo.png" [] (getImageHash demoSha [])
        (.str (String.mk ('[' :: 'h' :: 'a' :: 's' :: 'h' :: ':' :: (['4'] ++ [']'])))) =
      .ok (strTake (demoSha []) (Nat.min (if 4 = 0 then defaultHashSize else 4) 8)) ∧
    generateAssetFileName "photo.png" [] (getImageHash demoSha []) (.str "[hash]") =
      .ok (strTake (demoSha []) 8) :=
  c5_hash_truncation demoSha "photo.png" [] ['4'] 4 (by decide) (by decide) (by decide)

/-- Counterexample to claim C5: the token hash:12 renders only 8 hex
characters (the stored hash is pre-truncated to 8), and the token hash:0
renders 8 characters rather than 0, so the rendered hash is not truncated
to exactly N characters for every non-negative N. -/
theorem c5_hash_truncation_cex :
    generateAssetFileName "photo.png" [] (getImageHash demoSha []) (.str "[hash:12]") =
      .ok "01234567" ∧
    ("01234567" : String).length ≠ 12 ∧
    generateAssetFileName "photo.png" [] (getImageHash demoSha []) (.str "[hash:0]") =
      .ok "01234567" ∧
    ("01234567" : String).length ≠ 0 :=
  ⟨rfl, by decide, rfl, by decide⟩

/-! ## Claim C6 -/

/-- Rendering a pattern that contains no opening bracket is the
identity. -/
theorem renderCharsF_no_bracket (repl : String → Option (Option Nat → Except String String)) :
    ∀ (fuel : Nat) (l : List Char), l.length ≤ fuel →
      (∀ c ∈ l, c ≠ '[') → renderCharsF repl fuel l = .ok l := by
  intro fuel
  induction fuel with
  | zero =>
    intro l hl _
    rw [List.length_eq_zero.mp (Nat.le_zero.mp hl)]
    rfl
  | succ fuel ih =>
    intro l hl hnb
    match l with
    | [] => rfl
    | c :: rest =>
      have hc : ¬c = '[' := hnb c (by simp)
      have hrest : ∀ a ∈ rest, a ≠ '[' := fun a ha => hnb a (by simp [ha])
      have hlen : rest.length ≤ fuel := by
        rw [List.length_cons] at hl
        omega
      simp only [renderCharsF, if_neg hc, ih rest hlen hrest]

/-- Counterexample to claim C6: a function-valued pattern returning the
literal string of one name token does not produce that string as-is; the
return value is rendered again and the token is substituted. -/
theorem c6_function_pattern_cex :
    generateAssetFileName "photo.png" [] "abcdef12"
        (.fn (fun _ => "[name]")) = .ok "photo" ∧
    ("photo" : String) ≠ "[name]" :=
  ⟨rfl, by decide⟩

/-- Claim C6 as amended: a function-valued pattern is called with the
asset descriptor (name, source bytes, type asset) and its return value is
then itself processed as a template, with placeholder substitution applied
to it; only when the returned string contains no opening bracket is it
used exactly as returned. -/
theorem c6_function_pattern (name : String) (source : List Nat) (sourceHash : String)
    (f : AssetInfo → String) :
    generateAssetFileName name source sourceHash (.fn f) =
      renderNamePattern (f { name := name, source := source, type := "asset" })
        (assetReplacements name sourceHash) ∧
    ((∀ c ∈ (f { name := name, source := source, type := "asset" }).toList, c ≠ '[') →
      generateAssetFileName name source sourceHash (.fn f) =
        .ok (f { name := name, source := source, type := "asset" })) := by
  refine ⟨rfl, fun hnb => ?_⟩
  unfold generateAssetFileName renderNamePattern
  rw [renderCharsF_no_bracket _ _ _ le_rfl hnb]
  rfl

/-- Witness for c6_function_pattern at a bracket-free function result. -/
theorem c6_function_pattern_witness :
    generateAssetFileName "photo.png" [] "abcdef12"
        (.fn (fun info => info.name)) = .ok "photo.png" :=
  (c6_function_pattern "photo.png" [] "abcdef12" (fun info => info.name)).2 (by decide)

/-! ## Claim C8 -/

/-- A successful token scan consumes at least the token name and the
closing bracket, so the remainder is at least two characters shorter. -/
theorem scanToken_length (l : List Char) (ty : String) (size : Option Nat)
    (r : List Char) (h : scanToken l = some (ty, size, r)) :
    r.length + 2 ≤ l.length := by
  unfold scanToken at h
  by_cases hwe : l.takeWhile isWordChar = []
  · rw [if_pos hwe] at h
    exact absurd h (by simp)
  · rw [if_neg hwe] at h
    have hwl : 1 ≤ (l.takeWhile isWordChar).length := List.length_pos.mpr hwe
    have hsplit : (l.takeWhile isWordChar).length + (l.dropWhile isWordChar).length =
        l.length := by
      conv_rhs => rw [← List.takeWhile_append_dropWhile (p := isWordChar) (l := l)]
      rw [List.length_append]
    split at h
    · rename_i r1 heq
      have hq := congrArg List.length heq
      simp only [List.length_cons] at hq
      simp only [Option.some.injEq, Prod.mk.injEq] at h
      obtain ⟨-, -, hr⟩ := h
      subst hr
      omega
    · rename_i r1 heq
      have hq := congrArg List.length heq
      simp only [List.length_cons] at hq
      have hsplit2 : (r1.takeWhile Char.isDigit).length +
          (r1.dropWhile Char.isDigit).length = r1.length := by
        conv_rhs => rw [← List.takeWhile_append_dropWhile (p := Char.isDigit) (l := r1)]
        rw [List.length_append]
      split at h
      · rename_i c cs r2 hd hr2
        have hdl := congrArg List.length hd
        have hrl := congrArg List.length hr2
        simp only [List.length_cons] at hdl hrl
        simp only [Option.some.injEq, Prod.mk.injEq] at h
        obtain ⟨-, -, hr⟩ := h
        subst hr
        omega
      · exact absurd h (by simp)
    · exact absurd h (by simp)

/-- A pattern one of whose scanned tokens has no entry in the replacements
table renders to an error (in JS the lookup yields no callable and the
call throws a TypeError); a replacement call that itself throws also makes
rendering error. -/
theorem renderCharsF_unknown (repl : String → Option (Option Nat → Except String String)) :
    ∀ (fuel : Nat) (l : List Char), l.length ≤ fuel →
      (∃ tk ∈ patternTokensF fuel l, repl tk.1 = none) →
      ∃ e, renderCharsF repl fuel l = .error e := by
  intro fuel
  induction fuel with
  | zero =>
    intro l _ hex
    exact absurd hex (by simp [patternTokensF])
  | succ fuel ih =>
    intro l hl hex
    match l with
    | [] => exact absurd hex (by simp [patternTokensF])
    | c :: rest =>
      have hlen : rest.length ≤ fuel := by
        rw [List.length_cons] at hl
        omega
      by_cases hc : c = '['
      · subst hc
        match hscan : scanToken rest with
        | some (ty, size, r) =>
          simp only [patternTokensF, eq_self_iff_true, if_true, hscan] at hex
          match hrepl : repl ty with
          | none =>
            refine ⟨"replacements[" ++ ty ++ "] is not a function", ?_⟩
            simp only [renderCharsF, eq_self_iff_true, if_true, hscan, hrepl]
          | some f =>
            have hr : r.length ≤ fuel := by
              have := scanToken_length rest ty size r hscan
              omega
            have hex2 : ∃ tk ∈ patternTokensF fuel r, repl tk.1 = none := by
              rcases hex with ⟨tk, htk, hnone⟩
              rcases List.mem_cons.mp htk with heq | hmem
              · rw [heq] at hnone
                rw [hnone] at hrepl
                exact absurd hrepl (by simp)
              · exact ⟨tk, hmem, hnone⟩
            match hcall : f size with
            | .error e2 =>
              refine ⟨e2, ?_⟩
              simp only [renderCharsF, eq_self_iff_true, if_true, hscan, hrepl, hcall]
            | .ok s =>
              obtain ⟨e, he⟩ := ih r hr hex2
              refine ⟨e, ?_⟩
              simp only [renderCharsF, eq_self_iff_true, if_true, hscan, hrepl, hcall, he]
        | none =>
          simp only [patternTokensF, eq_self_iff_true, if_true, hscan] at hex
          obtain ⟨e, he⟩ := ih rest hlen hex
          refine ⟨e, ?_⟩
          simp only [renderCharsF, eq_self_iff_true, if_true, hscan, he]
      · simp only [patternTokensF, if_neg hc] at hex
        obtain ⟨e, he⟩ := ih rest hlen hex
        refine ⟨e, ?_⟩
        simp only [renderCharsF, if_neg hc, he]

/-- Counterexample to claim C8: the token name constructor is not one of
name, ext, extname or hash, yet rendering does not throw — the property
read on the replacements object finds the callable Object constructor on
the prototype chain, and the pattern renders with the silent fallback
substitution [object Object].  The other callable Object.prototype
members are likewise substituted silently. -/
theorem c8_proto_token_cex :
    generateAssetFileName "a.png" [] "abcdef12" (.str "x[constructor]y") =
      .ok "x[object Object]y" ∧
    ("constructor" : String) ∉ (["name", "ext", "extname", "hash"] : List String) ∧
    generateAssetFileName "a.png" [] "abcdef12" (.str "[toString]") =
      .ok "[object Object]" ∧
    generateAssetFileName "a.png" [] "abcdef12" (.str "[valueOf]") =
      .ok "[object Object]" ∧
    generateAssetFileName "a.png" [] "abcdef12" (.str "[hasOwnProperty]") =
      .ok "false" :=
  ⟨rfl, by decide, rfl, rfl, rfl⟩

/-- Claim C8 as amended: a template pattern containing a placeholder
token whose name is neither one of name, ext, extname, hash nor a member
of Object.prototype makes rendering fail with a thrown error; but a token
named after a callable Object.prototype member is not an error — it is
silently substituted with the stringified result of calling that member
(the constructor token yields the string [object Object], proved below
for every name, source and hash; the getter- and setter-defining members
still throw, from inside the call, shown for the getter one). -/
theorem c8_unknown_token_fails (name : String) (source : List Nat) (sourceHash : String)
    (pattern : String) :
    ((∃ tk ∈ patternTokens pattern,
        tk.1 ∉ (["name", "ext", "extname", "hash"] : List String) ∧
        objectProtoLookup tk.1 = none) →
      ∃ e, generateAssetFileName name source sourceHash (.str pattern) = .error e) ∧
    generateAssetFileName name source sourceHash (.str "[constructor]") =
      .ok "[object Object]" ∧
    (∃ e, generateAssetFileName name source sourceHash (.str "[__defineGetter__]") =
      .error e) := by
  refine ⟨fun h => ?_, rfl, ⟨"Getter must be a function: undefined", rfl⟩⟩
  obtain ⟨tk, htk, hunk, hproto⟩ := h
  have hnone : assetReplacements name sourceHash tk.1 = none := by
    unfold assetReplacements
    rw [if_neg (fun he => hunk (by rw [he]; decide)),
      if_neg (fun he => hunk (by rw [he]; decide)),
      if_neg (fun he => hunk (by rw [he]; decide)),
      if_neg (fun he => hunk (by rw [he]; decide))]
    exact hproto
  obtain ⟨e, he⟩ := renderCharsF_unknown (assetReplacements name sourceHash)
    pattern.toList.length pattern.toList le_rfl ⟨tk, htk, hnone⟩
  refine ⟨e, ?_⟩
  unfold generateAssetFileName renderNamePattern
  rw [he]

/-- Witness for c8_unknown_token_fails at the unknown token foo, which is
neither an own replacement name nor an Object.prototype member. -/
theorem c8_unknown_token_fails_witness :
    (∃ e, generateAssetFileName "a.png" [] "abcdef12" (.str "x[foo]y") = .error e) ∧
    generateAssetFileName "a.png" [] "abcdef12" (.str "[constructor]") =
      .ok "[object Object]" :=
  ⟨(c8_unknown_token_fails "a.png" [] "abcdef12" "x[foo]y").1
      ⟨("foo", none), by decide, by decide, rfl⟩,
    (c8_unknown_token_fails "a.png" [] "abcdef12" "x[foo]y").2.1⟩

/-! ## Map and settle lemmas -/

/-- Setting a key makes it readable. -/
theorem mapGet_mapSet_self (m : List (String × String)) (k v : String) :
    mapGet (mapSet m k v) k = some v := by
  induction m with
  | nil => simp [mapSet, mapGet]
  | cons kv rest ih =>
    by_cases h : kv.1 = k
    · simp [mapSet, mapGet, h]
    · simp [mapSet, mapGet, h, ih]

/-- Setting one key leaves every other key unchanged. -/
theorem mapGet_mapSet_ne (m : List (String × String)) (k v k2 : String) (h : k2 ≠ k) :
    mapGet (mapSet m k v) k2 = mapGet m k2 := by
  have hkk : ¬k = k2 := fun he => h he.symm
  induction m with
  | nil => simp [mapSet, mapGet, hkk]
  | cons kv rest ih =>
    obtain ⟨k3, v3⟩ := kv
    by_cases hk : k3 = k
    · subst hk
      simp [mapSet, mapGet, hkk]
    · simp [mapSet, mapGet, hk, ih]

/-- A key none of the fulfilled results carries is untouched by the settle
fold. -/
theorem settleFold_no_key (rs : List (Except String (String × String)))
    (m : List (String × String)) (k : String)
    (h : ∀ kv, Except.ok kv ∈ rs → kv.1 ≠ k) :
    mapGet (rs.foldl settleStep m) k = mapGet m k := by
  induction rs generalizing m with
  | nil => rfl
  | cons r rest ih =>
    have hrest : ∀ kv, Except.ok kv ∈ rest → kv.1 ≠ k :=
      fun kv hkv => h kv (List.mem_cons_of_mem r hkv)
    match r with
    | .error e => exact ih m hrest
    | .ok kv =>
      have hne : kv.1 ≠ k := h kv (List.mem_cons_self _ _)
      rw [List.foldl_cons]
      rw [show settleStep m (Except.ok kv) = mapSet m kv.1 kv.2 from rfl] at *
      rw [ih _ hrest, mapGet_mapSet_ne m kv.1 kv.2 k (fun he => hne he.symm)]

/-- Once a key maps to the value every fulfilled result for that key
carries, the settle fold preserves it. -/
theorem settleFold_keeps (rs : List (Except String (String × String)))
    (m : List (String × String)) (k v : String)
    (hall : ∀ v2, Except.ok (k, v2) ∈ rs → v2 = v) (hm : mapGet m k = some v) :
    mapGet (rs.foldl settleStep m) k = some v := by
  induction rs generalizing m with
  | nil => exact hm
  | cons r rest ih =>
    have hrest : ∀ v2, Except.ok (k, v2) ∈ rest → v2 = v :=
      fun v2 hv2 => hall v2 (List.mem_cons_of_mem r hv2)
    match r with
    | .error e => exact ih m hrest hm
    | .ok kv =>
      rw [List.foldl_cons]
      by_cases hk : kv.1 = k
      · have hv : kv.2 = v := by
          apply hall
          rw [show (k, kv.2) = kv from by rw [← hk]]
          exact List.mem_cons_self _ _
        refine ih _ hrest ?_
        rw [show settleStep m (Except.ok kv) = mapSet m kv.1 kv.2 from rfl, hk, hv]
        exact mapGet_mapSet_self m k v
      · refine ih _ hrest ?_
        rw [show settleStep m (Except.ok kv) = mapSet m kv.1 kv.2 from rfl]
        rw [mapGet_mapSet_ne m kv.1 kv.2 k (fun he => hk he.symm)]
        exact hm

/-- A fulfilled result whose key is carried by no other fulfilled result
with a different value ends up in the settled map. -/
theorem settleFold_found (rs : List (Except String (String × String)))
    (m : List (String × String)) (k v : String)
    (hmem : Except.ok (k, v) ∈ rs) (hall : ∀ v2, Except.ok (k, v2) ∈ rs → v2 = v) :
    mapGet (rs.foldl settleStep m) k = some v := by
  induction rs generalizing m with
  | nil => exact absurd hmem (List.not_mem_nil _)
  | cons r rest ih =>
    have hrest : ∀ v2, Except.ok (k, v2) ∈ rest → v2 = v :=
      fun v2 hv2 => hall v2 (List.mem_cons_of_mem r hv2)
    rw [List.foldl_cons]
    match r with
    | .error e =>
      rcases List.mem_cons.mp hmem with heq | hmem2
      · exact absurd heq (by simp)
      · exact ih _ hmem2 hrest
    | .ok kv =>
      by_cases hk : kv.1 = k
      · have hv : kv.2 = v := by
          apply hall
          rw [show (k, kv.2) = kv from by rw [← hk]]
          exact List.mem_cons_self _ _
        refine settleFold_keeps rest _ k v hrest ?_
        rw [show settleStep m (Except.ok kv) = mapSet m kv.1 kv.2 from rfl, hk, hv]
        exact mapGet_mapSet_self m k v
      · rcases List.mem_cons.mp hmem with heq | hmem2
        · injection heq with h2
          rw [← h2] at hk
          exact absurd rfl hk
        · exact ih _ hmem2 hrest

/-- When every result is a rejection the settled map is empty. -/
theorem settleFold_all_error (rs : List (Except String (String × String)))
    (m : List (String × String)) (h : ∀ r ∈ rs, ∃ e, r = .error e) :
    rs.foldl settleStep m = m := by
  induction rs generalizing m with
  | nil => rfl
  | cons r rest ih =>
    obtain ⟨e, he⟩ := h r (List.mem_cons_self _ _)
    rw [List.foldl_cons, he]
    exact ih m (fun r2 hr2 => h r2 (List.mem_cons_of_mem r hr2))

/-- Two entries of an association list with duplicate-free keys and the
same key are the same entry. -/
theorem nodup_keys_unique (l : List (String × String))
    (hnd : (l.map Prod.fst).Nodup) (k a a2 : String)
    (h1 : (k, a) ∈ l) (h2 : (k, a2) ∈ l) : a = a2 := by
  induction l with
  | nil => exact absurd h1 (List.not_mem_nil _)
  | cons x xs ih =>
    rw [List.map_cons, List.nodup_cons] at hnd
    rcases List.mem_cons.mp h1 with he1 | hm1 <;> rcases List.mem_cons.mp h2 with he2 | hm2
    · rw [← he1] at he2
      exact (Prod.mk.injEq _ _ _ _ ▸ he2).2.symm
    · exfalso
      apply hnd.1
      rw [← he1]
      exact List.mem_map.mpr ⟨(k, a2), hm2, rfl⟩
    · exfalso
      apply hnd.1
      rw [← he2]
      exact List.mem_map.mpr ⟨(k, a), hm1, rfl⟩
    · exact ih hnd.2 hm1 hm2

/-- Unfolding of rewriteSrc at a node that passes the shape guard. -/
theorem rewriteSrc_some (env : Env) (options : Options) (imagePaths : List String)
    (itr resolved : List (String × String)) (tagName : String) (src? : Option PropVal)
    (src : String) (hsrc : nodeImageSrc imagePaths tagName src? = some src) :
    rewriteSrc env options imagePaths itr resolved tagName src? =
      if mapHas itr src then
        match mapGet resolved src with
        | some resolvedSrc =>
          if resolvedSrc = "" then src? else some (.str (finalSrc env options resolvedSrc))
        | none => src?
      else src? := by
  unfold rewriteSrc
  rw [hsrc]

/-- A fulfilled pipeline carries the relative path it was dispatched
for. -/
theorem pipelinePromise_ok_fst (env : Env) (vite : Option RollupOutput)
    (rel abs : String) (kv : String × String)
    (h : pipelinePromise env vite rel abs = .ok kv) : kv.1 = rel := by
  unfold pipelinePromise at h
  split at h
  · exact absurd h (by simp)
  · exact absurd h (by simp)
  · split at h
    · exact absurd h (by simp)
    · split at h
      · exact absurd h (by simp)
      · simp only [Except.ok.injEq] at h
        rw [← h]

/-! ## Claim C3 -/

/-- Claim C3: the settle-all join is independent per image.  For a batch
of dispatched entries with duplicate-free keys in which the pipeline of
one entry rejects: every other fulfilled pipeline still appears in the
result mapping (1) and is applied to its nodes (4); the rejected reference
is absent from the mapping (2); and a node carrying the rejected reference
keeps its original src unchanged (3).  The document pass itself cannot
fail: the transformer is total and the rejection is absorbed by the fold
of Promise.allSettled. -/
theorem c3_settle_all_independent (env : Env) (vite : Option RollupOutput)
    (entries : List (String × String)) (r0 a0 e : String)
    (hnd : (entries.map Prod.fst).Nodup)
    (hmem : (r0, a0) ∈ entries)
    (herr : pipelinePromise env vite r0 a0 = .error e) :
    (∀ r a v, (r, a) ∈ entries → pipelinePromise env vite r a = .ok (r, v) →
      mapGet (settleResults (entries.map (fun p => pipelinePromise env vite p.1 p.2))) r
        = some v) ∧
    mapGet (settleResults (entries.map (fun p => pipelinePromise env vite p.1 p.2))) r0
      = none ∧
    (∀ (options : Options) (imagePaths : List String)
      (itr : List (String × String)) (tagName : String) (src? : Option PropVal),
      nodeImageSrc imagePaths tagName src? = some r0 →
      rewriteSrc env options imagePaths itr
        (settleResults (entries.map (fun p => pipelinePromise env vite p.1 p.2)))
        tagName src? = src?) ∧
    (∀ (options : Options) (imagePaths : List String)
      (itr : List (String × String)) (tagName : String) (src? : Option PropVal)
      (r v : String),
      nodeImageSrc imagePaths tagName src? = some r →
      mapHas itr r = true →
      mapGet (settleResults (entries.map (fun p => pipelinePromise env vite p.1 p.2))) r
        = some v →
      v ≠ "" →
      rewriteSrc env options imagePaths itr
        (settleResults (entries.map (fun p => pipelinePromise env vite p.1 p.2)))
        tagName src? = some (.str (finalSrc env options v))) := by
  have hfulfilled : ∀ r a v, (r, a) ∈ entries →
      pipelinePromise env vite r a = .ok (r, v) →
      mapGet (settleResults (entries.map (fun p => pipelinePromise env vite p.1 p.2))) r
        = some v := by
    intro r a v hra hok
    apply settleFold_found
    · exact List.mem_map.mpr ⟨(r, a), hra, hok⟩
    · intro v2 hv2
      obtain ⟨p, hp, hpe⟩ := List.mem_map.mp hv2
      have hp1 : p.1 = r := by
        have := pipelinePromise_ok_fst env vite p.1 p.2 (r, v2) hpe
        exact this.symm
      have hpa : p.2 = a := by
        refine nodup_keys_unique entries hnd r p.2 a ?_ hra
        rw [← hp1]
        exact hp
      rw [hp1, hpa, hok] at hpe
      simp only [Except.ok.injEq, Prod.mk.injEq, true_and] at hpe
      exact hpe.symm
  have hrejected :
      mapGet (settleResults (entries.map (fun p => pipelinePromise env vite p.1 p.2))) r0
        = none := by
    apply settleFold_no_key
    intro kv hkv heq
    obtain ⟨p, hp, hpe⟩ := List.mem_map.mp hkv
    have hp1 : p.1 = r0 := by
      rw [← heq]
      exact (pipelinePromise_ok_fst env vite p.1 p.2 kv hpe).symm
    have hpa : p.2 = a0 := by
      refine nodup_keys_unique entries hnd r0 p.2 a0 ?_ hmem
      rw [← hp1]
      exact hp
    rw [hp1, hpa, herr] at hpe
    exact absurd hpe (by simp)
  refine ⟨hfulfilled, hrejected, ?_, ?_⟩
  · intro options imagePaths itr tagName src? hsrc
    rw [rewriteSrc_some env options imagePaths itr _ tagName src? r0 hsrc, hrejected]
    by_cases hit : mapHas itr r0 <;> simp [hit]
  · intro options imagePaths itr tagName src? r v hsrc hit hget hv
    rw [rewriteSrc_some env options imagePaths itr _ tagName src? r hsrc, hget, hit]
    simp [hv]

/-- Environment for the C3 witness: three files exist, the metadata read
rejects for the second one. -/
def envC3 : Env :=
  { demoEnv with
    fs := fun p =>
      if p = "/d/a.png" then some [1]
      else if p = "/d/b.png" then some [2]
      else if p = "/d/c.png" then some [3]
      else none
    imageMetadata := fun u => if u = "file:///d/b.png" then .error "boom" else .ok (some 0) }

/-- The three dispatched entries of the C3 witness. -/
def entriesC3 : List (String × String) :=
  [("a.png", "/d/a.png"), ("b.png", "/d/b.png"), ("c.png", "/d/c.png")]

/-- Witness for c3_settle_all_independent: with the middle pipeline
rejecting, the two fulfilled images appear in the mapping, the rejected
one is absent, and a node with the rejected reference keeps its src. -/
theorem c3_settle_all_independent_witness :
    mapGet (settleResults (entriesC3.map (fun p => pipelinePromise envC3 none p.1 p.2)))
      "a.png" = some "assets/a-01234567.png" ∧
    mapGet (settleResults (entriesC3.map (fun p => pipelinePromise envC3 none p.1 p.2)))
      "b.png" = none ∧
    rewriteSrc envC3 demoOptions ["a.png", "b.png", "c.png"] entriesC3
      (settleResults (entriesC3.map (fun p => pipelinePromise envC3 none p.1 p.2)))
      "img" (some (.str "b.png")) = some (.str "b.png") := by
  have h := c3_settle_all_independent envC3 none entriesC3 "b.png" "/d/b.png" "boom"
    (by decide) (by decide) (by rfl)
  refine ⟨?_, h.2.1, ?_⟩
  · exact h.1 "a.png" "/d/a.png" "assets/a-01234567.png" (by decide) (by rfl)
  · exact h.2.2.1 demoOptions ["a.png", "b.png", "c.png"] entriesC3 "img"
      (some (.str "b.png")) (by decide)

/-! ## Claim C7 -/

/-- With an array-valued output option every per-image pipeline rejects:
either already at the metadata or file read, or at the Array.isArray check
of getImageAssetFileName, in every case before a file name is
generated. -/
theorem pipelinePromise_arr_error (env : Env) (rel abs : String) :
    ∃ e, pipelinePromise env (some .arr) rel abs = .error e := by
  unfold pipelinePromise
  cases hmeta : env.imageMetadata (env.pathToFileURL abs) with
  | error e => exact ⟨e, rfl⟩
  | ok mo =>
    cases mo with
    | none => exact ⟨"Failed to get metadata for image " ++ rel, rfl⟩
    | some meta =>
      cases hg : getImageAssetFileName env abs (some .arr) with
      | error e => exact ⟨e, rfl⟩
      | ok ap =>
        exfalso
        unfold getImageAssetFileName at hg
        cases hf : getImageSource env abs with
        | error e =>
          rw [hf] at hg
          exact absurd hg (by simp)
        | ok src =>
          rw [hf] at hg
          simp [isArrayOutput] at hg

/-- Rewriting against an empty resolved map changes no src property. -/
theorem rewriteSrc_empty (env : Env) (options : Options) (imagePaths : List String)
    (itr : List (String × String)) (tagName : String) (src? : Option PropVal) :
    rewriteSrc env options imagePaths itr [] tagName src? = src? := by
  unfold rewriteSrc
  cases h : nodeImageSrc imagePaths tagName src? with
  | none => rfl
  | some src => by_cases hit : mapHas itr src <;> simp [hit, mapGet]

/-- Rewriting a tree against an empty resolved map is the identity. -/
theorem rewriteTree_empty (env : Env) (options : Options) (imagePaths : List String)
    (itr : List (String × String)) : ∀ t, rewriteTree env options imagePaths itr [] t = t := by
  intro t
  induction t with
  | nil => rfl
  | elem tagName src? child next ihc ihn =>
    simp [rewriteTree, rewriteSrc_empty, ihc, ihn]
  | other child next ihc ihn =>
    simp [rewriteTree, ihc, ihn]

/-- The guard of lines 29-35, for use inside later proofs: any falsy path,
non-Set imagePaths or empty set makes the run a no-op. -/
theorem rehypeAstroImagesRun_guard (env : Env) (options : Options) (tree : HTree)
    (file : VFile)
    (h : file.path = "" ∨ file.imagePaths = .absent ∨
      (∃ l, file.imagePaths = .array l) ∨ file.imagePaths = .set []) :
    rehypeAstroImagesRun env options tree file = (tree, []) := by
  unfold rehypeAstroImagesRun
  rcases h with h | h | ⟨l, h⟩ | h
  · simp [h]
  · rw [h]; by_cases hp : file.path = "" <;> simp [hp]
  · rw [h]; by_cases hp : file.path = "" <;> simp [hp]
  · rw [h]; by_cases hp : file.path = "" <;> simp [hp]

/-- The body of the transformer on a guard-passing document: the tree is
rewritten against the collected references and the settled pipeline
results, and the dispatched entries are the collected map. -/
theorem rehypeAstroImagesRun_set (env : Env) (options : Options) (tree : HTree)
    (path : String) (elems : List String) (hp : path ≠ "") (hz : elems ≠ []) :
    rehypeAstroImagesRun env options tree { path := path, imagePaths := .set elems } =
      (rewriteTree env options elems
        (collectImages env options path elems [] tree)
        (settleResults ((collectImages env options path elems [] tree).map
          (fun e => pipelinePromise env options.viteConfig e.1 e.2)))
        tree,
       collectImages env options path elems [] tree) := by
  have hz2 : ¬(elems.length = 0) := fun h0 => hz (List.length_eq_zero.mp h0)
  unfold rehypeAstroImagesRun
  simp [hp, hz2]

/-- Counterexample to claim C7: with an array-valued output option the
pass does not fail.  On a concrete document the transformer completes,
dispatches the one pipeline (so the failure is not before dispatch), that
pipeline rejects with the descriptive error, the rejection is absorbed,
and the tree is returned unchanged instead of the pass throwing. -/
theorem c7_array_output_cex :
    rehypeAstroImagesRun demoEnv { rootPath := "/proj", rootUrl := none, viteConfig := some .arr }
        (.other (.elem "img" (some (.str "a.png")) .nil .nil) .nil)
        { path := "/d/p.md", imagePaths := .set ["a.png"] } =
      (.other (.elem "img" (some (.str "a.png")) .nil .nil) .nil,
        [("a.png", "/d/a.png")]) ∧
    pipelinePromise demoEnv (some .arr) "a.png" "/d/a.png" =
      .error "We don't know how to handle multiple output options 😬" :=
  ⟨by decide, rfl⟩

/-- Claim C7 as amended: an array-valued output option makes every
per-image pipeline reject with a descriptive error before any asset file
name is generated; the settle-all join absorbs the rejections, so the pass
itself completes and returns the tree unchanged (no image is resolved)
rather than throwing. -/
theorem c7_array_output (env : Env) (options : Options) (tree : HTree) (file : VFile)
    (h : options.viteConfig = some .arr) :
    rehypeAstroImages env options tree file = tree := by
  obtain ⟨fpath, fip⟩ := file
  unfold rehypeAstroImages
  by_cases hp : fpath = ""
  · rw [rehypeAstroImagesRun_guard _ _ _ _ (Or.inl hp)]
  · cases fip with
    | absent => rw [rehypeAstroImagesRun_guard _ _ _ _ (Or.inr (Or.inl rfl))]
    | array l =>
      rw [rehypeAstroImagesRun_guard _ _ _ _ (Or.inr (Or.inr (Or.inl ⟨l, rfl⟩)))]
    | set elems =>
      by_cases hz : elems = []
      · subst hz
        rw [rehypeAstroImagesRun_guard _ _ _ _ (Or.inr (Or.inr (Or.inr rfl)))]
      · rw [rehypeAstroImagesRun_set env options tree fpath elems hp hz]
        have hres : settleResults
            ((collectImages env options fpath elems [] tree).map
              (fun e => pipelinePromise env options.viteConfig e.1 e.2)) = [] := by
          apply settleFold_all_error
          intro r hr
          obtain ⟨p, hp2, hpe⟩ := List.mem_map.mp hr
          rw [h] at hpe
          obtain ⟨e2, he2⟩ := pipelinePromise_arr_error env p.1 p.2
          exact ⟨e2, by rw [← hpe, he2]⟩
        simp only [hres, rewriteTree_empty]

/-- Witness for c7_array_output at a concrete run. -/
theorem c7_array_output_witness :
    rehypeAstroImages demoEnv
        { rootPath := "/proj", rootUrl := none, viteConfig := some .arr }
        (.other (.elem "img" (some (.str "pic.png")) .nil .nil) .nil)
        { path := "/d/p.md", imagePaths := .set ["pic.png"] } =
      .other (.elem "img" (some (.str "pic.png")) .nil .nil) .nil :=
  c7_array_output demoEnv _ _ _ rfl

/-! ## Claim C1 -/

/-- mapHas decides membership of the key list. -/
theorem mapHas_iff_mem (m : List (String × String)) (k : String) :
    mapHas m k = true ↔ k ∈ m.map Prod.fst := by
  induction m with
  | nil => simp [mapHas, mapGet]
  | cons kv rest ih =>
    obtain ⟨k3, v3⟩ := kv
    by_cases h : k3 = k
    · simp [mapHas, mapGet, h]
    · simp only [List.map_cons, List.mem_cons]
      rw [show mapHas ((k3, v3) :: rest) k = mapHas rest k from by
        simp [mapHas, mapGet, h]]
      rw [ih]
      constructor
      · exact fun hm => Or.inr hm
      · rintro (he | hm)
        · exact absurd he.symm h
        · exact hm

/-- The visitor step only appends to the imagesToResolve map. -/
theorem collectImage_append (env : Env) (options : Options) (filePath : String)
    (imagePaths : List String) (m : List (String × String)) (tagName : String)
    (src? : Option PropVal) :
    ∃ δ, collectImage env options filePath imagePaths m tagName src? = m ++ δ := by
  cases h : nodeImageSrc imagePaths tagName src? with
  | none => exact ⟨[], by simp [collectImage, h]⟩
  | some src =>
    simp only [collectImage, h]
    by_cases hh : mapHas m src
    · rw [if_pos hh]
      exact ⟨[], by simp⟩
    · rw [if_neg hh]
      by_cases hf : (env.fs (resolveSrc env options filePath src)).isSome
      · rw [if_pos hf]
        exact ⟨[(src, resolveSrc env options filePath src)], rfl⟩
      · rw [if_neg hf]
        exact ⟨[], by simp⟩

/-- The whole visit only appends to the imagesToResolve map. -/
theorem collectImages_append (env : Env) (options : Options) (filePath : String)
    (imagePaths : List String) :
    ∀ (t : HTree) (m : List (String × String)),
      ∃ δ, collectImages env options filePath imagePaths m t = m ++ δ := by
  intro t
  induction t with
  | nil => exact fun m => ⟨[], by simp [collectImages]⟩
  | elem tagName src? child next ihc ihn =>
    intro m
    obtain ⟨d1, h1⟩ := collectImage_append env options filePath imagePaths m tagName src?
    obtain ⟨d2, h2⟩ := ihc (collectImage env options filePath imagePaths m tagName src?)
    obtain ⟨d3, h3⟩ := ihn (collectImages env options filePath imagePaths
      (collectImage env options filePath imagePaths m tagName src?) child)
    refine ⟨d1 ++ d2 ++ d3, ?_⟩
    rw [show collectImages env options filePath imagePaths m (.elem tagName src? child next) =
      collectImages env options filePath imagePaths
        (collectImages env options filePath imagePaths
          (collectImage env options filePath imagePaths m tagName src?) child) next
      from rfl]
    rw [h3, h2, h1]
    simp [List.append_assoc]
  | other child next ihc ihn =>
    intro m
    obtain ⟨d2, h2⟩ := ihc m
    obtain ⟨d3, h3⟩ := ihn (collectImages env options filePath imagePaths m child)
    refine ⟨d2 ++ d3, ?_⟩
    rw [show collectImages env options filePath imagePaths m (.other child next) =
      collectImages env options filePath imagePaths
        (collectImages env options filePath imagePaths m child) next from rfl]
    rw [h3, h2]
    simp [List.append_assoc]

/-- A key present before the visit is present after it. -/
theorem collectImages_mono (env : Env) (options : Options) (filePath : String)
    (imagePaths : List String) (t : HTree) (m : List (String × String)) (s : String)
    (h : s ∈ m.map Prod.fst) :
    s ∈ (collectImages env options filePath imagePaths m t).map Prod.fst := by
  obtain ⟨δ, hδ⟩ := collectImages_append env options filePath imagePaths t m
  rw [hδ, List.map_append]
  exact List.mem_append_left _ h

/-- The visitor step keeps the key list duplicate-free. -/
theorem collectImage_nodup (env : Env) (options : Options) (filePath : String)
    (imagePaths : List String) (m : List (String × String)) (tagName : String)
    (src? : Option PropVal) (hnd : (m.map Prod.fst).Nodup) :
    ((collectImage env options filePath imagePaths m tagName src?).map Prod.fst).Nodup := by
  cases h : nodeImageSrc imagePaths tagName src? with
  | none => simpa [collectImage, h] using hnd
  | some src =>
    simp only [collectImage, h]
    by_cases hh : mapHas m src
    · rw [if_pos hh]
      exact hnd
    · rw [if_neg hh]
      by_cases hf : (env.fs (resolveSrc env options filePath src)).isSome
      · rw [if_pos hf]
        rw [List.map_append]
        rw [List.nodup_append]
        refine ⟨hnd, by simp, ?_⟩
        intro a ha hb
        simp only [List.map_cons, List.map_nil, List.mem_singleton] at hb
        rw [hb] at ha
        exact (by simpa [hh] using (mapHas_iff_mem m src).mpr ha)
      · rw [if_neg hf]
        exact hnd

/-- The whole visit keeps the key list duplicate-free. -/
theorem collectImages_nodup (env : Env) (options : Options) (filePath : String)
    (imagePaths : List String) :
    ∀ (t : HTree) (m : List (String × String)), (m.map Prod.fst).Nodup →
      ((collectImages env options filePath imagePaths m t).map Prod.fst).Nodup := by
  intro t
  induction t with
  | nil => exact fun m h => h
  | elem tagName src? child next ihc ihn =>
    intro m hnd
    exact ihn _ (ihc _ (collectImage_nodup env options filePath imagePaths m tagName
      src? hnd))
  | other child next ihc ihn =>
    intro m hnd
    exact ihn _ (ihc _ hnd)

/-- Every eligible reference whose resolved file exists ends up among the
collected keys. -/
theorem collectImages_mem (env : Env) (options : Options) (filePath : String)
    (imagePaths : List String) :
    ∀ (t : HTree) (m : List (String × String)) (s : String),
      s ∈ eligibleSrcs imagePaths t →
      (env.fs (resolveSrc env options filePath s)).isSome = true →
      s ∈ (collectImages env options filePath imagePaths m t).map Prod.fst := by
  intro t
  induction t with
  | nil =>
    intro m s hs _
    simp [eligibleSrcs] at hs
  | elem tagName src? child next ihc ihn =>
    intro m s hs hf
    rw [show eligibleSrcs imagePaths (.elem tagName src? child next) =
      (match nodeImageSrc imagePaths tagName src? with
       | some src => [src]
       | none => []) ++ eligibleSrcs imagePaths child ++ eligibleSrcs imagePaths next
      from rfl] at hs
    rw [show collectImages env options filePath imagePaths m (.elem tagName src? child next) =
      collectImages env options filePath imagePaths
        (collectImages env options filePath imagePaths
          (collectImage env options filePath imagePaths m tagName src?) child) next
      from rfl]
    rcases List.mem_append.mp hs with hs12 | hs3
    · rcases List.mem_append.mp hs12 with hs1 | hs2
      · apply collectImages_mono
        apply collectImages_mono
        cases h : nodeImageSrc imagePaths tagName src? with
        | none => rw [h] at hs1; exact absurd hs1 (List.not_mem_nil s)
        | some src =>
          rw [h] at hs1
          have hssrc : s = src := List.mem_singleton.mp hs1
          subst hssrc
          simp only [collectImage, h]
          by_cases hh : mapHas m s
          · rw [if_pos hh]
            exact (mapHas_iff_mem m s).mp hh
          · rw [if_neg hh, if_pos hf, List.map_append]
            exact List.mem_append_right _ (by simp)
      · apply collectImages_mono
        exact ihc _ s hs2 hf
    · exact ihn _ s hs3 hf
  | other child next ihc ihn =>
    intro m s hs hf
    rw [show eligibleSrcs imagePaths (.other child next) =
      eligibleSrcs imagePaths child ++ eligibleSrcs imagePaths next from rfl] at hs
    rw [show collectImages env options filePath imagePaths m (.other child next) =
      collectImages env options filePath imagePaths
        (collectImages env options filePath imagePaths m child) next from rfl]
    rcases List.mem_append.mp hs with hs2 | hs3
    · apply collectImages_mono
      exact ihc _ s hs2 hf
    · exact ihn _ s hs3 hf

/-- Concrete tree for the C1 counterexample: two img nodes with the
distinct references a.png and ./a.png. -/
def treeC1 : HTree :=
  .other (.elem "img" (some (.str "a.png")) .nil
    (.elem "img" (some (.str "./a.png")) .nil .nil)) .nil

/-- Concrete file for the C1 counterexample. -/
def fileC1 : VFile := { path := "/d/p.md", imagePaths := .set ["a.png", "./a.png"] }

/-- Counterexample to claim C1: the two distinct reference strings a.png
and ./a.png both resolve to the absolute path /d/a.png, yet the document
pass dispatches the per-image pipeline twice for that absolute path (the
dedup map is keyed by the reference string), refuting both the exactly
once and the at most once part of the claim. -/
theorem c1_per_path_cex :
    ((rehypeAstroImagesRun demoEnv demoOptions treeC1 fileC1).2.map Prod.snd).count
      "/d/a.png" = 2 ∧
    ((rehypeAstroImagesRun demoEnv demoOptions treeC1 fileC1).2.map Prod.snd).count
      "/d/a.png" ≠ 1 ∧
    ("a.png" : String) ≠ "./a.png" ∧
    resolveSrc demoEnv demoOptions "/d/p.md" "a.png" = "/d/a.png" ∧
    resolveSrc demoEnv demoOptions "/d/p.md" "./a.png" = "/d/a.png" := by
  refine ⟨by decide, by decide, by decide, by decide, by decide⟩

/-- Claim C1 as amended: the pipeline is dispatched exactly once per
unique reference string, not per unique absolute path.  On a guard-passing
document the dispatched keys are duplicate-free (at most one dispatch per
reference), and every filter-passing reference whose resolved file exists
is dispatched exactly once; distinct references resolving to the same
absolute path are each dispatched separately. -/
theorem c1_per_reference_dispatch (env : Env) (options : Options) (tree : HTree)
    (file : VFile) (elems : List String) (hp : file.path ≠ "")
    (hs : file.imagePaths = .set elems) (hz : elems ≠ []) :
    (((rehypeAstroImagesRun env options tree file).2.map Prod.fst).Nodup) ∧
    (∀ s, s ∈ eligibleSrcs elems tree →
      (env.fs (resolveSrc env options file.path s)).isSome = true →
      ((rehypeAstroImagesRun env options tree file).2.map Prod.fst).count s = 1) := by
  obtain ⟨fpath, fip⟩ := file
  simp only at hp hs ⊢
  subst hs
  have hrun : (rehypeAstroImagesRun env options tree
      { path := fpath, imagePaths := .set elems }).2 =
      collectImages env options fpath elems [] tree := by
    rw [rehypeAstroImagesRun_set env options tree fpath elems hp hz]
  rw [hrun]
  have hnd : ((collectImages env options fpath elems [] tree).map Prod.fst).Nodup :=
    collectImages_nodup env options fpath elems tree [] (by simp)
  refine ⟨hnd, fun s hs hf => ?_⟩
  have hmem : s ∈ (collectImages env options fpath elems [] tree).map Prod.fst :=
    collectImages_mem env options fpath elems tree [] s hs hf
  exact List.count_eq_one_of_mem hnd hmem

/-- Witness for c1_per_reference_dispatch on a one-image document. -/
theorem c1_per_reference_dispatch_witness :
    (((rehypeAstroImagesRun demoEnv demoOptions
      (.other (.elem "img" (some (.str "a.png")) .nil .nil) .nil)
      { path := "/d/p.md", imagePaths := .set ["a.png"] }).2.map Prod.fst).Nodup) ∧
    ((rehypeAstroImagesRun demoEnv demoOptions
      (.other (.elem "img" (some (.str "a.png")) .nil .nil) .nil)
      { path := "/d/p.md", imagePaths := .set ["a.png"] }).2.map Prod.fst).count
      "a.png" = 1 := by
  have h := c1_per_reference_dispatch demoEnv demoOptions
    (.other (.elem "img" (some (.str "a.png")) .nil .nil) .nil)
    { path := "/d/p.md", imagePaths := .set ["a.png"] } ["a.png"]
    (by decide) rfl (by decide)
  exact ⟨h.1, h.2 "a.png" (by decide) (by decide)⟩

/-! ## Claim C4: path resolution lemmas -/

/-- A segment the normalizeString loop simply pushes: nonempty and neither
dot nor dot-dot. -/
def normalSeg (seg : List Char) : Bool :=
  !(seg = []) && !(seg = ['.']) && !(seg = ['.', '.'])

/-- A normalized relative path: splitting on the separator yields only
plain segments (so it is nonempty, has no leading, trailing or doubled
separator, and no dot or dot-dot segment). -/
def normalRel (s : String) : Bool :=
  (splitSlash s.toList).all normalSeg

/-- A normalized absolute path: a separator followed by a normalized
relative remainder. -/
def normalAbs (s : String) : Bool :=
  match s.toList with
  | [] => false
  | c :: cs => c = '/' && (splitSlash cs).all normalSeg

/-- Strings joined with separators, in the shape produced by repeated
path concatenation. -/
def intercalateSlash : List String → String
  | [] => ""
  | r :: rs =>
    match rs with
    | [] => r
    | _ :: _ => r ++ "/" ++ intercalateSlash rs

/-- splitSlash never returns the empty list of groups. -/
theorem splitSlash_ne_nil (l : List Char) : splitSlash l ≠ [] := by
  match l with
  | [] => simp [splitSlash]
  | c :: rest =>
    by_cases h : c = '/'
    · simp [splitSlash, h]
    · simp only [splitSlash, if_neg h]
      cases hs : splitSlash rest with
      | nil => simp
      | cons g gs => simp

/-- Splitting distributes over concatenation at a separator. -/
theorem splitSlash_append (a b : List Char) :
    splitSlash (a ++ '/' :: b) = splitSlash a ++ splitSlash b := by
  induction a with
  | nil => simp [splitSlash]
  | cons c a2 ih =>
    by_cases h : c = '/'
    · subst h
      show splitSlash ('/' :: (a2 ++ '/' :: b)) = splitSlash ('/' :: a2) ++ splitSlash b
      simp only [splitSlash, eq_self_iff_true, if_true, ih]
      rfl
    · show splitSlash (c :: (a2 ++ '/' :: b)) = splitSlash (c :: a2) ++ splitSlash b
      simp only [splitSlash, if_neg h, ih]
      cases hs : splitSlash a2 with
      | nil => exact absurd hs (splitSlash_ne_nil a2)
      | cons g gs => simp

/-- Joining undoes splitting. -/
theorem joinSlash_splitSlash (l : List Char) : joinSlash (splitSlash l) = l := by
  induction l with
  | nil => rfl
  | cons c rest ih =>
    by_cases h : c = '/'
    · subst h
      simp only [splitSlash, eq_self_iff_true, if_true]
      cases hs : splitSlash rest with
      | nil => exact absurd hs (splitSlash_ne_nil rest)
      | cons g gs =>
        rw [hs] at ih
        rw [show joinSlash ([] :: g :: gs) = [] ++ '/' :: joinSlash (g :: gs) from rfl]
        rw [ih]
        rfl
    · simp only [splitSlash, if_neg h]
      cases hs : splitSlash rest with
      | nil => exact absurd hs (splitSlash_ne_nil rest)
      | cons g gs =>
        rw [hs] at ih
        cases gs with
        | nil =>
          rw [show joinSlash [c :: g] = c :: g from rfl]
          rw [show joinSlash [g] = g from rfl] at ih
          rw [ih]
        | cons g2 gs2 =>
          rw [show joinSlash ((c :: g) :: g2 :: gs2) =
            (c :: g) ++ '/' :: joinSlash (g2 :: gs2) from rfl]
          rw [show joinSlash (g :: g2 :: gs2) = g ++ '/' :: joinSlash (g2 :: gs2) from rfl]
            at ih
          rw [List.cons_append, ih]

/-- Joining distributes over concatenation of nonempty group lists. -/
theorem joinSlash_append (gs hs : List (List Char)) (hg : gs ≠ []) (hh : hs ≠ []) :
    joinSlash (gs ++ hs) = joinSlash gs ++ '/' :: joinSlash hs := by
  induction gs with
  | nil => exact absurd rfl hg
  | cons g gs2 ih =>
    cases gs2 with
    | nil =>
      cases hs with
      | nil => exact absurd rfl hh
      | cons h hs2 => rfl
    | cons g2 gs3 =>
      have h1 : joinSlash ((g :: g2 :: gs3) ++ hs) =
          g ++ '/' :: joinSlash ((g2 :: gs3) ++ hs) := rfl
      rw [h1, ih (by simp)]
      rw [show joinSlash (g :: g2 :: gs3) = g ++ '/' :: joinSlash (g2 :: gs3) from rfl]
      simp

/-- The normalizeString fold over segments that are all empty or plain:
empty segments are dropped, plain segments are pushed. -/
theorem foldl_normStep_push (allow : Bool) :
    ∀ (segs : List (List Char)) (stack : List (List Char)),
      (∀ g ∈ segs, g = [] ∨ normalSeg g = true) →
      segs.foldl (normStep allow) stack =
        (segs.filter (fun g => !(g = []))).reverse ++ stack := by
  intro segs
  induction segs with
  | nil => intro stack _; rfl
  | cons g rest ih =>
    intro stack hall
    rcases hall g (by simp) with hg | hg
    · subst hg
      rw [List.foldl_cons]
      rw [show normStep allow stack [] = stack from by simp [normStep]]
      rw [ih stack (fun g2 h2 => hall g2 (by simp [h2]))]
      simp
    · have h1 : ¬(g = []) := by
        intro he
        rw [he] at hg
        simp [normalSeg] at hg
      have h2 : ¬(g = ['.']) := by
        intro he
        rw [he] at hg
        simp [normalSeg] at hg
      have h3 : ¬(g = ['.', '.']) := by
        intro he
        rw [he] at hg
        simp [normalSeg] at hg
      rw [List.foldl_cons]
      rw [show normStep allow stack g = g :: stack from by
        simp [normStep, h1, h2, h3]]
      rw [ih (g :: stack) (fun g2 hm => hall g2 (by simp [hm]))]
      simp [h1]

/-- Filtering away empty groups from an all-plain list is the identity. -/
theorem filter_ne_nil_of_all (l : List (List Char)) (h : ∀ g ∈ l, ¬(g = [])) :
    l.filter (fun g => !(g = [])) = l := by
  induction l with
  | nil => rfl
  | cons g rest ih =>
    rw [List.filter_cons]
    have hg : ¬(g = []) := h g (by simp)
    simp only [hg, decide_False, Bool.not_false, if_true]
    rw [ih (fun g2 hm => h g2 (by simp [hm]))]

/-- Character list of a concatenation. -/
theorem strToList_append (a b : String) : (a ++ b).toList = a.toList ++ b.toList := by
  cases a
  cases b
  rfl

/-- Character list of a concatenation with one separator between. -/
theorem strToList_append_slash (a b : String) :
    (a ++ "/" ++ b).toList = a.toList ++ '/' :: b.toList := by
  rw [strToList_append, strToList_append]
  simp

/-- A normalized relative path is nonempty. -/
theorem normalRel_ne_empty (s : String) (h : normalRel s = true) : s ≠ "" := by
  intro he
  subst he
  simp [normalRel, splitSlash, normalSeg] at h

/-- A normalized relative path does not start with the separator. -/
theorem normalRel_not_slash (s : String) (h : normalRel s = true) :
    strStartsWith s "/" = false := by
  unfold strStartsWith
  rw [show ("/" : String).toList = ['/'] from rfl]
  cases hl : s.toList with
  | nil => simp [List.isPrefixOf]
  | cons c cs =>
    by_cases hc : c = '/'
    · subst hc
      unfold normalRel at h
      rw [hl] at h
      simp [splitSlash, normalSeg] at h
    · simp [List.isPrefixOf]
      exact fun he => hc he.symm

/-- The shape of a normalized absolute path. -/
theorem normalAbs_toList (s : String) (h : normalAbs s = true) :
    ∃ bs, s.toList = '/' :: bs ∧ (splitSlash bs).all normalSeg = true := by
  unfold normalAbs at h
  cases hl : s.toList with
  | nil =>
    rw [hl] at h
    exact absurd h (by simp)
  | cons c cs =>
    rw [hl] at h
    rw [Bool.and_eq_true] at h
    have hc : c = '/' := by
      have := h.1
      simpa using this
    subst hc
    exact ⟨cs, rfl, h.2⟩

/-- A normalized absolute path is nonempty. -/
theorem normalAbs_ne_empty (s : String) (h : normalAbs s = true) : s ≠ "" := by
  obtain ⟨bs, hbs, _⟩ := normalAbs_toList s h
  intro he
  subst he
  simp at hbs

/-- A normalized absolute path starts with the separator. -/
theorem normalAbs_slash (s : String) (h : normalAbs s = true) :
    strStartsWith s "/" = true := by
  obtain ⟨bs, hbs, _⟩ := normalAbs_toList s h
  unfold strStartsWith
  rw [show ("/" : String).toList = ['/'] from rfl, hbs]
  simp [List.isPrefixOf]

/-- The resolve loop over relative parts followed by an absolute base:
every relative part is prepended with a separator and the loop stops at
the base. -/
theorem resolveLoop_rels (base cwd : String) (hbs : strStartsWith base "/" = true)
    (hbne : base ≠ "") :
    ∀ (l : List String) (acc : String),
      (∀ r ∈ l, r ≠ "" ∧ strStartsWith r "/" = false) →
      resolveLoop acc (l ++ [base, cwd]) =
        (base ++ "/" ++ l.foldl (fun a p => p ++ "/" ++ a) acc, true) := by
  intro l
  induction l with
  | nil =>
    intro acc _
    show resolveLoop acc [base, cwd] = (base ++ "/" ++ acc, true)
    unfold resolveLoop
    rw [if_neg hbne, if_pos hbs]
  | cons p rest ih =>
    intro acc hall
    have hp := hall p (by simp)
    show resolveLoop acc (p :: (rest ++ [base, cwd])) =
      (base ++ "/" ++ (p :: rest).foldl (fun a p => p ++ "/" ++ a) acc, true)
    unfold resolveLoop
    rw [if_neg hp.1, hp.2]
    simp only [Bool.false_eq_true, if_false]
    rw [ih (p ++ "/" ++ acc) (fun r hr => hall r (by simp [hr]))]
    rfl

/-- Splitting the separator-joined accumulation of the resolve loop:
one group list per part, in order, with a trailing empty group. -/
theorem splitSlash_foldr (rels : List String) :
    splitSlash ((rels.foldr (fun p a => p ++ "/" ++ a) "").toList) =
      (rels.map (fun r => splitSlash r.toList)).flatten ++ [[]] := by
  induction rels with
  | nil => rfl
  | cons r rest ih =>
    rw [List.foldr_cons]
    rw [strToList_append_slash]
    rw [splitSlash_append]
    rw [ih]
    simp

/-- A plain segment is nonempty. -/
theorem normalSeg_ne_nil (g : List Char) (h : normalSeg g = true) : ¬(g = []) := by
  intro he
  subst he
  simp [normalSeg] at h

/-- The flattened group lists of a nonempty list of paths are nonempty. -/
theorem flat_ne_nil (rels : List String) (h : rels ≠ []) :
    ((rels.map (fun r => splitSlash r.toList)).flatten) ≠ [] := by
  cases rels with
  | nil => exact absurd rfl h
  | cons r rest =>
    simp only [List.map_cons, List.flatten_cons]
    intro he
    exact splitSlash_ne_nil r.toList (List.append_eq_nil.mp he).1

/-- Joining the flattened groups of a nonempty path list gives the
separator-joined concatenation. -/
theorem joinSlash_flat (rels : List String) (hne : rels ≠ []) :
    joinSlash ((rels.map (fun r => splitSlash r.toList)).flatten) =
      (intercalateSlash rels).toList := by
  induction rels with
  | nil => exact absurd rfl hne
  | cons r rest ih =>
    cases hrest : rest with
    | nil =>
      subst hrest
      simp only [List.map_cons, List.map_nil, List.flatten_cons, List.flatten_nil,
        List.append_nil]
      rw [joinSlash_splitSlash]
      rfl
    | cons r2 rest2 =>
      subst hrest
      rw [show (((r :: r2 :: rest2).map (fun r => splitSlash r.toList)).flatten) =
        splitSlash r.toList ++ (((r2 :: rest2).map (fun r => splitSlash r.toList)).flatten)
        from by simp]
      rw [joinSlash_append _ _ (splitSlash_ne_nil _) (flat_ne_nil _ (by simp))]
      rw [ih (by simp)]
      rw [show intercalateSlash (r :: r2 :: rest2) =
        r ++ "/" ++ intercalateSlash (r2 :: rest2) from rfl]
      rw [strToList_append_slash]
      rw [joinSlash_splitSlash]

/-- Filtering the segment shape produced by splitting a resolved path:
the leading empty group, nothing inside, and the trailing empty group are
dropped. -/
theorem filter_resolved_shape (bsSegs flat : List (List Char))
    (h1 : ∀ g ∈ bsSegs, ¬(g = [])) (h2 : ∀ g ∈ flat, ¬(g = [])) :
    (([] : List Char) :: (bsSegs ++ (flat ++ [[]]))).filter (fun g => !(g = [])) =
      bsSegs ++ flat := by
  rw [List.filter_cons]
  have hc : (!decide (([] : List Char) = [])) = false := by decide
  rw [hc]
  simp only [Bool.false_eq_true, if_false]
  rw [List.filter_append, List.filter_append]
  rw [filter_ne_nil_of_all bsSegs h1, filter_ne_nil_of_all flat h2]
  simp

/-- Resolution of a normalized absolute base against normalized relative
parts is plain separator-joined concatenation: the normalization pass of
path.resolve leaves every segment in place. -/
theorem pathResolve_normal (cwd base : String) (rels : List String)
    (hb : normalAbs base = true) (hr : ∀ r ∈ rels, normalRel r = true)
    (hne : rels ≠ []) :
    pathResolve cwd (base :: rels) = base ++ "/" ++ intercalateSlash rels := by
  obtain ⟨bs, hbs, hbsall⟩ := normalAbs_toList base hb
  have hrev : (base :: rels).reverse ++ [cwd] = rels.reverse ++ [base, cwd] := by
    rw [List.reverse_cons, List.append_assoc]
    rfl
  have hjoin : resolveLoop "" ((base :: rels).reverse ++ [cwd]) =
      (base ++ "/" ++ rels.reverse.foldl (fun a p => p ++ "/" ++ a) "", true) := by
    rw [hrev]
    exact resolveLoop_rels base cwd (normalAbs_slash base hb) (normalAbs_ne_empty base hb)
      rels.reverse ""
      (fun r hrm => ⟨normalRel_ne_empty r (hr r (List.mem_reverse.mp hrm)),
        normalRel_not_slash r (hr r (List.mem_reverse.mp hrm))⟩)
  have hfold : rels.reverse.foldl (fun a p => p ++ "/" ++ a) "" =
      rels.foldr (fun p a => p ++ "/" ++ a) "" := by
    rw [List.foldl_reverse]
  have hjoin2 : resolveLoop "" ((base :: rels).reverse ++ [cwd]) =
      (base ++ "/" ++ rels.foldr (fun p a => p ++ "/" ++ a) "", true) := by
    rw [hjoin, hfold]
  have hsplit : splitSlash ((base ++ "/" ++
      rels.foldr (fun p a => p ++ "/" ++ a) "").toList) =
      [] :: (splitSlash bs ++
        (((rels.map (fun r => splitSlash r.toList)).flatten) ++ [[]])) := by
    rw [strToList_append_slash, hbs]
    rw [show ('/' :: bs) ++ '/' ::
      (rels.foldr (fun p a => p ++ "/" ++ a) "").toList =
      '/' :: (bs ++ '/' :: (rels.foldr (fun p a => p ++ "/" ++ a) "").toList) from rfl]
    rw [show splitSlash ('/' :: (bs ++ '/' ::
      (rels.foldr (fun p a => p ++ "/" ++ a) "").toList)) =
      [] :: splitSlash (bs ++ '/' ::
        (rels.foldr (fun p a => p ++ "/" ++ a) "").toList) from by
      simp [splitSlash]]
    rw [splitSlash_append, splitSlash_foldr]
  have hbsall2 : ∀ g ∈ splitSlash bs, normalSeg g = true :=
    fun g hg => List.all_eq_true.mp hbsall g hg
  have hflatall : ∀ g ∈ ((rels.map (fun r => splitSlash r.toList)).flatten),
      normalSeg g = true := by
    intro g hg
    obtain ⟨gs, hgs, hgm⟩ := List.mem_flatten.mp hg
    obtain ⟨r, hrm, hreq⟩ := List.mem_map.mp hgs
    exact List.all_eq_true.mp (hr r hrm) g (hreq ▸ hgm)
  have hnorm : normalizeSegs false (splitSlash ((base ++ "/" ++
      rels.foldr (fun p a => p ++ "/" ++ a) "").toList)) =
      splitSlash bs ++ ((rels.map (fun r => splitSlash r.toList)).flatten) := by
    rw [hsplit]
    unfold normalizeSegs
    rw [foldl_normStep_push false _ []]
    · rw [List.append_nil, List.reverse_reverse]
      exact filter_resolved_shape (splitSlash bs)
        ((rels.map (fun r => splitSlash r.toList)).flatten)
        (fun g hg => normalSeg_ne_nil g (hbsall2 g hg))
        (fun g hg => normalSeg_ne_nil g (hflatall g hg))
    · intro g hg
      rcases List.mem_cons.mp hg with hg0 | hg1
      · exact Or.inl hg0
      rcases List.mem_append.mp hg1 with hgb | hg2
      · exact Or.inr (hbsall2 g hgb)
      rcases List.mem_append.mp hg2 with hgf | hge
      · exact Or.inr (hflatall g hgf)
      · exact Or.inl (List.mem_singleton.mp hge)
  have hmain : pathResolve cwd (base :: rels) =
      String.mk ('/' :: joinSlash (normalizeSegs false (splitSlash ((base ++ "/" ++
        rels.foldr (fun p a => p ++ "/" ++ a) "").toList)))) := by
    unfold pathResolve
    rw [hjoin2]
    rfl
  rw [hmain, hnorm]
  rw [joinSlash_append _ _ (splitSlash_ne_nil bs) (flat_ne_nil rels hne)]
  rw [joinSlash_splitSlash bs, joinSlash_flat rels hne]
  have htarget : (base ++ "/" ++ intercalateSlash rels).toList =
      '/' :: (bs ++ '/' :: (intercalateSlash rels).toList) := by
    rw [strToList_append_slash, hbs]
    rfl
  rw [← strMkToList (base ++ "/" ++ intercalateSlash rels), htarget]

/-- A list is a prefix of itself followed by anything. -/
theorem isPrefixOf_self_append (a b : List Char) : a.isPrefixOf (a ++ b) = true := by
  induction a with
  | nil => simp [List.isPrefixOf]
  | cons c cs ih => simp [List.isPrefixOf, ih]

/-- A string starts with itself followed by anything. -/
theorem strStartsWith_self_append (a b : String) : strStartsWith (a ++ b) a = true := by
  unfold strStartsWith
  rw [strToList_append]
  exact isPrefixOf_self_append _ _

/-- Dropping the alias prefix recovers the remainder. -/
theorem strDrop_alias (rem : String) : strDrop ("~/assets/" ++ rem) 9 = rem := by
  unfold strDrop
  rw [strToList_append]
  rw [show ("~/assets/" : String).toList =
    ['~', '/', 'a', 's', 's', 'e', 't', 's', '/'] from rfl]
  rw [show (9 : Nat) =
    (['~', '/', 'a', 's', 's', 'e', 't', 's', '/'] : List Char).length from rfl]
  rw [List.drop_left]
  exact strMkToList rem

/-- Counterexample to claim C4: the reference ~/assets//x starts with the
alias prefix and its remainder after the prefix is /x, but the code
resolves it with path.resolve, which restarts at the absolute remainder
and yields /x; the join of rootPath, src, assets and the remainder
required by the claim is /proj/src/assets//x, a different path. -/
theorem c4_alias_join_cex :
    strDrop "~/assets//x" 9 = "/x" ∧
    resolveSrc demoEnv demoOptions "/d/p.md" "~/assets//x" = "/x" ∧
    specAliasJoin "/proj" "/x" = "/proj/src/assets//x" ∧
    ("/x" : String) ≠ specAliasJoin "/proj" "/x" := by
  refine ⟨by decide, by decide, by decide, by decide⟩

/-- Claim C4 as amended: an alias reference ~/assets/<rem> resolves with
path.resolve against rootPath, src, assets and the remainder, which
coincides with the plain join rootPath/src/assets/<rem> whenever rootPath
is a normalized absolute path and the remainder is a normalized relative
path (resolution restarts at an absolute remainder and normalizes dot,
dot-dot and empty segments, so the universal join claim fails there); a
non-alias reference resolves against the directory of the document path,
coinciding with the plain join dirname(documentPath)/<reference> under
the same normality conditions. -/
theorem c4_alias_resolution (env : Env) (options : Options) (filePath src rem : String) :
    (src = "~/assets/" ++ rem → normalAbs options.rootPath = true →
      normalRel rem = true →
      resolveSrc env options filePath src = options.rootPath ++ "/src/assets/" ++ rem) ∧
    (strStartsWith src "~/assets/" = false → normalAbs (dirname filePath) = true →
      normalRel src = true →
      resolveSrc env options filePath src = dirname filePath ++ "/" ++ src) := by
  constructor
  · intro hsrc hroot hrem
    subst hsrc
    unfold resolveSrc
    rw [if_pos (strStartsWith_self_append "~/assets/" rem)]
    rw [strDrop_alias rem]
    rw [pathResolve_normal env.cwd options.rootPath ["src", "assets", rem] hroot
      (by
        intro r hrm
        rcases List.mem_cons.mp hrm with h1 | hrm2
        · rw [h1]; decide
        rcases List.mem_cons.mp hrm2 with h2 | hrm3
        · rw [h2]; decide
        rcases List.mem_cons.mp hrm3 with h3 | hrm4
        · rw [h3]; exact hrem
        · exact absurd hrm4 (List.not_mem_nil r))
      (by simp)]
    rw [show intercalateSlash ["src", "assets", rem] =
      "src" ++ "/" ++ ("assets" ++ "/" ++ rem) from rfl]
    rw [← strMkToList (options.rootPath ++ "/" ++ ("src" ++ "/" ++ ("assets" ++ "/" ++ rem)))]
    rw [← strMkToList (options.rootPath ++ "/src/assets/" ++ rem)]
    congr 1
    rw [strToList_append_slash, strToList_append_slash, strToList_append_slash]
    rw [strToList_append, strToList_append]
    rw [show ("src" : String).toList = ['s', 'r', 'c'] from rfl]
    rw [show ("assets" : String).toList = ['a', 's', 's', 'e', 't', 's'] from rfl]
    rw [show ("/src/assets/" : String).toList =
      ['/', 's', 'r', 'c', '/', 'a', 's', 's', 'e', 't', 's', '/'] from rfl]
    simp
  · intro hsrc hdir hrel
    unfold resolveSrc
    rw [hsrc]
    simp only [Bool.false_eq_true, if_false]
    rw [pathResolve_normal env.cwd (dirname filePath) [src] hdir
      (by
        intro r hrm
        rw [List.mem_singleton.mp hrm]
        exact hrel)
      (by simp)]
    rfl

/-- Witness for c4_alias_resolution: the alias example of the spec and a
plain relative reference. -/
theorem c4_alias_resolution_witness :
    resolveSrc demoEnv demoOptions "/d/p.md" "~/assets/logo.png" =
      "/proj/src/assets/logo.png" ∧
    resolveSrc demoEnv demoOptions "/proj/src/pages/post.md" "img/a.png" =
      "/proj/src/pages/img/a.png" := by
  constructor
  · have h := (c4_alias_resolution demoEnv demoOptions "/d/p.md" "~/assets/logo.png"
      "logo.png").1 (by decide) (by decide) (by decide)
    rw [h]
    decide
  · have h := (c4_alias_resolution demoEnv demoOptions "/proj/src/pages/post.md"
      "img/a.png" "").2 (by decide) (by decide) (by decide)
    rw [h]
    decide

end RehypeAstroImages
